import Mathlib

/-!
Verification development for the request-path engine of swagger-mcp-go.

Each Go component relevant to the checked claims is shallowly embedded:
pure functions become Lean functions, stateful methods become explicit
state passing, `time.Time` and `time.Duration` become `Int` (nanoseconds),
Go errors become `Option`/`Except`-style values, and Go maps become
association lists whose iteration order, where observable, is an explicit
parameter (Go randomizes map iteration order).
-/

/-! ## Hooks (internal/hooks)

Embedding of the hook manager: `HookType`, `Priority`, `Hook`,
`Manager.RegisterHook` (with its bubble sort by priority, highest first),
and `Manager.executeHooks`, which runs the hooks of a phase in order and
returns on the first hook error, wrapping it as
`fmt.Errorf("hook %s failed: %w", name, err)`.

A hook's `Execute` mutates the `HookContext`; this is modelled by a state
type `σ` threaded through execution, and hook errors by a type `ε`.
In addition to the Go return value (the error), `executeHooks` here also
returns the list of names of the hooks that actually executed; in Go this
is observable through the hooks' side effects on the context.
-/

namespace Hooks

inductive HookType where
  | preRequest
  | postResponse
  | onError
deriving DecidableEq, Repr

/-- A registered hook: name, phase, priority, and its Execute function,
which receives the mutable context (state `σ`) and returns the updated
context together with an optional error (`ε`). -/
structure Hook (σ ε : Type) where
  name : String
  hookType : HookType
  priority : Int
  exec : σ → σ × Option ε

/-- The error value returned by `executeHooks` when a hook fails:
Go wraps the hook's error as `hook <name> failed: <err>`, keeping the
cause in the error chain.  Modelled as the pair (hook name, cause). -/
structure WrappedError (ε : Type) where
  hookName : String
  cause : ε
deriving DecidableEq, Repr

/-- `Manager.executeHooks`: run the given hooks in list order, threading
the context; stop at the first hook returning an error and return that
error wrapped with the hook's name.  Also returns the trace of executed
hook names (observable in Go via context side effects). -/
def executeHooks {σ ε : Type} : List (Hook σ ε) → σ → σ × List String × Option (WrappedError ε)
  | [], s => (s, [], none)
  | h :: rest, s =>
    let r := h.exec s
    match r.2 with
    | some err => (r.1, [h.name], some ⟨h.name, err⟩)
    | none =>
      let rec' := executeHooks rest r.1
      (rec'.1, h.name :: rec'.2.1, rec'.2.2)

/-- One full pass of the bubble sort in `Manager.sortHooksByPriority`,
carrying the current element `a`: adjacent hooks are swapped when the
earlier one has strictly lower priority
(Go: `hooks[j].Priority() < hooks[j+1].Priority()`). -/
def bubblePassAux {σ ε : Type} (a : Hook σ ε) : List (Hook σ ε) → List (Hook σ ε)
  | [] => [a]
  | b :: rest =>
    if a.priority < b.priority then b :: bubblePassAux a rest
    else a :: bubblePassAux b rest

/-- One full bubble pass over the hook list. -/
def bubblePass {σ ε : Type} : List (Hook σ ε) → List (Hook σ ε)
  | [] => []
  | a :: rest => bubblePassAux a rest

/-- Iterate the bubble pass. -/
def iterPass {σ ε : Type} : Nat → List (Hook σ ε) → List (Hook σ ε)
  | 0, l => l
  | n + 1, l => iterPass n (bubblePass l)

/-- `Manager.sortHooksByPriority`: bubble sort, highest priority first,
stable for equal priorities.  The Go nested loop performs `n-1` shrinking
passes; applying the full pass `n` times yields the same result. -/
def sortHooksByPriority {σ ε : Type} (l : List (Hook σ ε)) : List (Hook σ ε) :=
  iterPass l.length l

/-- The hook manager: one hook list per phase (Go map from HookType). -/
structure Manager (σ ε : Type) where
  hooks : HookType → List (Hook σ ε)

def newManager (σ ε : Type) : Manager σ ε := ⟨fun _ => []⟩

/-- `Manager.RegisterHook`: append the hook to its phase's list and
re-sort that list by priority. -/
def registerHook {σ ε : Type} (m : Manager σ ε) (h : Hook σ ε) : Manager σ ε :=
  ⟨fun t => if t = h.hookType then sortHooksByPriority (m.hooks h.hookType ++ [h]) else m.hooks t⟩

/-- `Manager.ExecutePreRequestHooks`. -/
def executePreRequestHooks {σ ε : Type} (m : Manager σ ε) (s : σ) :
    σ × List String × Option (WrappedError ε) :=
  executeHooks (m.hooks .preRequest) s

/-- `Manager.ExecutePostResponseHooks`. -/
def executePostResponseHooks {σ ε : Type} (m : Manager σ ε) (s : σ) :
    σ × List String × Option (WrappedError ε) :=
  executeHooks (m.hooks .postResponse) s

/-- `Manager.ExecuteErrorHooks`. -/
def executeErrorHooks {σ ε : Type} (m : Manager σ ε) (s : σ) :
    σ × List String × Option (WrappedError ε) :=
  executeHooks (m.hooks .onError) s

end Hooks

/-! ## Circuit breaker (internal/circuitbreaker)

Embedding of `CircuitBreaker`: the three-state FSM with `onFailure`,
`onSuccess` and `setState`.  `time.Time` and `time.Duration` are `Int`
(nanoseconds); `time.Now()` becomes an explicit `now` argument.  The
metric counters (totalRequests, totalFailures, ...) are not observed by
any claim and are omitted from the state record.
-/

namespace CB

inductive CBState where
  | closed
  | «open»
  | halfOpen
deriving DecidableEq, Repr

structure Config where
  maxFailures : Nat
  resetTimeout : Int
  successThreshold : Nat
  timeout : Int
deriving DecidableEq, Repr

structure CircuitBreaker where
  config : Config
  state : CBState
  failures : Nat
  successes : Nat
  lastFailureTime : Int
  nextAttempt : Int
deriving DecidableEq, Repr

/-- `NewCircuitBreaker`: defaults applied to non-positive config fields,
then the breaker starts closed with zeroed counters. -/
def newCircuitBreaker (config : Config) : CircuitBreaker :=
  let config :=
    { maxFailures := if config.maxFailures ≤ 0 then 5 else config.maxFailures
      resetTimeout := if config.resetTimeout ≤ 0 then 60 * 1000000000 else config.resetTimeout
      successThreshold := if config.successThreshold ≤ 0 then 1 else config.successThreshold
      timeout := if config.timeout ≤ 0 then 30 * 1000000000 else config.timeout }
  { config := config, state := .closed, failures := 0, successes := 0,
    lastFailureTime := 0, nextAttempt := 0 }

/-- `CircuitBreaker.setState`: change state; entering open schedules
`nextAttempt = now + resetTimeout`, entering closed zeroes both counters,
entering half-open zeroes the success counter. -/
def setState (cb : CircuitBreaker) (s : CBState) (now : Int) : CircuitBreaker :=
  let cb := { cb with state := s }
  match s with
  | .«open» => { cb with nextAttempt := now + cb.config.resetTimeout }
  | .closed => { cb with failures := 0, successes := 0 }
  | .halfOpen => { cb with successes := 0 }

/-- `CircuitBreaker.onFailure`: bump the failure counter, record the
failure time, zero the success counter; a closed breaker opens once
`failures ≥ maxFailures`, a half-open breaker opens on any failure. -/
def onFailure (cb : CircuitBreaker) (now : Int) : CircuitBreaker :=
  let cb := { cb with failures := cb.failures + 1, lastFailureTime := now, successes := 0 }
  match cb.state with
  | .closed => if cb.failures ≥ cb.config.maxFailures then setState cb .«open» now else cb
  | .halfOpen => setState cb .«open» now
  | .«open» => cb

/-- `CircuitBreaker.onSuccess`: a closed breaker resets its failure
counter; a half-open breaker counts successes and closes once
`successes ≥ successThreshold`. -/
def onSuccess (cb : CircuitBreaker) (now : Int) : CircuitBreaker :=
  match cb.state with
  | .closed => { cb with failures := 0 }
  | .halfOpen =>
    let cb := { cb with successes := cb.successes + 1 }
    if cb.successes ≥ cb.config.successThreshold then setState cb .closed now else cb
  | .«open» => cb

/-- A run of consecutive failing calls, each completing at the given
time: `onResult` with a non-nil error calls `onFailure`. -/
def runFailures (cb : CircuitBreaker) : List Int → CircuitBreaker
  | [] => cb
  | now :: rest => runFailures (onFailure cb now) rest

end CB

/-! ## Rate limiter (internal/ratelimit)

Embedding of `SlidingWindowLimiter.Allow` (per-key window as a list of
admission timestamps, oldest first) and of `getClientIP` /
`DefaultKeyGenerator`.  Timestamps and durations are `Int` nanoseconds.
-/

namespace RL

/-- One `SlidingWindowLimiter.Allow` call on a single key's window.
`requestsPerMinute` and `windowSize` come from the limiter config;
`s` is the key's stored timestamp list (oldest first), `now` the call
time.  Returns the updated list, whether the call was admitted, and the
`retryAfter` duration.  Mirrors the Go method: prune entries not strictly
newer than `now - windowSize` (`reqTime.After(windowStart)`), admit and
append `now` if fewer than `requestsPerMinute` remain, otherwise deny
with `retryAfter = oldest + windowSize - now` clamped at 0 (and
`windowSize` in the vacuous empty-list branch). -/
def slidingAllow (requestsPerMinute : Nat) (windowSize : Int)
    (s : List Int) (now : Int) : List Int × Bool × Int :=
  let windowStart := now - windowSize
  let valid := s.filter (fun t => windowStart < t)
  if valid.length < requestsPerMinute then
    (valid ++ [now], true, 0)
  else
    match valid with
    | oldest :: _ =>
      let retryAfter := oldest + windowSize - now
      (valid, false, if retryAfter < 0 then 0 else retryAfter)
    | [] => (valid, false, windowSize)

/-- A sequence of `Allow` calls on one key, from window state `s`.
Returns the final window state and the list of admitted call times. -/
def slidingRun (requestsPerMinute : Nat) (windowSize : Int)
    (s : List Int) : List Int → List Int × List Int
  | [] => (s, [])
  | now :: rest =>
    let step := slidingAllow requestsPerMinute windowSize s now
    let r := slidingRun requestsPerMinute windowSize step.1 rest
    (r.1, (if step.2.1 then [now] else []) ++ r.2)

/-- An inbound HTTP request, as far as `getClientIP` observes it:
headers (association list; `Header.Get` of an absent key is the empty
string) and the peer address. -/
structure Request where
  headers : List (String × String)
  remoteAddr : String
deriving DecidableEq, Repr

def headerGet (req : Request) (key : String) : String :=
  (req.headers.lookup key).getD ""

/-- `getClientIP`: return the X-Forwarded-For header value when
non-empty (the Go code re-reads the same header and returns the entire
comma-joined string), else X-Real-IP when non-empty, else RemoteAddr. -/
def getClientIP (req : Request) : String :=
  let xff := headerGet req "X-Forwarded-For"
  let viaXff :=
    if xff ≠ "" then
      let comma := headerGet req "X-Forwarded-For"
      if comma ≠ "" then some comma else none
    else none
  match viaXff with
  | some ip => ip
  | none =>
    let xri := headerGet req "X-Real-IP"
    if xri ≠ "" then xri else req.remoteAddr

/-- `DefaultKeyGenerator`: keys rate limiting by client IP. -/
def defaultKeyGenerator (req : Request) : String :=
  getClientIP req

/-- Split a character list at commas. -/
def splitCommaAux (cur : List Char) : List Char → List (List Char)
  | [] => [cur.reverse]
  | c :: rest =>
    if c = ',' then cur.reverse :: splitCommaAux [] rest
    else splitCommaAux (c :: cur) rest

/-- Strip leading and trailing whitespace from a character list. -/
def trimChars (l : List Char) : List Char :=
  ((l.dropWhile (fun c => c.isWhitespace)).reverse.dropWhile (fun c => c.isWhitespace)).reverse

/-- Modelled from the spec: the documented key, "the client IP (from
X-Forwarded-For first non-empty component, else X-Real-IP, else the peer
address)".  The first non-empty comma-separated component, trimmed. -/
def specFirstForwardedComponent (req : Request) : String :=
  let xff := headerGet req "X-Forwarded-For"
  match ((splitCommaAux [] xff.data).map trimChars).filter (fun c => !c.isEmpty) with
  | first :: _ => ⟨first⟩
  | [] =>
    let xri := headerGet req "X-Real-IP"
    if xri ≠ "" then xri else req.remoteAddr

end RL

/-! ## Spec registry (internal/registry) and MCP control surface (internal/mcp)

Embedding of `Registry.Get`, `Registry.List`, `Registry.isExpired` and
`Registry.cleanupExpired`, plus the existence checks of the MCP tool
handlers `handleRefreshSpec`, `handleInspectRoute`, `handleGetStats` and
`handleEnableAuthPolicy`.  The registry map is an association list keyed
by service name; times are `Int` nanoseconds.  Event emission and
logging are not observed by any claim and are omitted; handler bodies
past the existence check perform I/O and are represented by the
`proceeds` outcome.
-/

namespace Reg

/-- `models.SpecInfo`, restricted to the fields the claims observe. -/
structure SpecInfo where
  serviceName : String
  url : String
  fetchedAt : Int
  ttl : Int
deriving DecidableEq, Repr

/-- The registry's `specs` map, as an association list. -/
abbrev Registry := List (String × SpecInfo)

/-- `Registry.isExpired`: a spec with non-positive TTL never expires;
otherwise it is expired once `time.Since(fetchedAt) > TTL`. -/
def isExpired (spec : SpecInfo) (now : Int) : Bool :=
  if spec.ttl ≤ 0 then false else now - spec.fetchedAt > spec.ttl

/-- `Registry.Get`: look the service up; an absent service yields
`(none, false)`; an expired entry is returned but flagged not fresh. -/
def get (r : Registry) (serviceName : String) (now : Int) : Option SpecInfo × Bool :=
  match r.lookup serviceName with
  | none => (none, false)
  | some spec => if isExpired spec now then (some spec, false) else (some spec, true)

/-- `Registry.List`: every stored entry. -/
def listSpecs (r : Registry) : List SpecInfo :=
  r.map (fun e => e.2)

/-- The deletion condition of `Registry.cleanupExpired` for one entry:
expired, and `now - (fetchedAt + TTL) > TTL`. -/
def cleanupRemoves (spec : SpecInfo) (now : Int) : Bool :=
  isExpired spec now && (now - (spec.fetchedAt + spec.ttl) > spec.ttl)

/-- `Registry.cleanupExpired`: delete every entry satisfying
`cleanupRemoves`, keep the rest. -/
def cleanupExpired (r : Registry) (now : Int) : Registry :=
  r.filter (fun e => !cleanupRemoves e.2 now)

/-- Outcome of an MCP tool handler, up to the point where it would start
doing I/O (fetching, building the result payload). -/
inductive ToolOutcome where
  | errMissingParam
  | errInvalidAuthType
  | errNotFound
  | proceeds
deriving DecidableEq, Repr

/-- `Server.handleRefreshSpec`, up to the registry existence check:
an empty serviceName is rejected; a Get whose boolean result is false is
reported as `Service not found`. -/
def handleRefreshSpecGuard (r : Registry) (now : Int) (serviceName : String) : ToolOutcome :=
  if serviceName = "" then .errMissingParam
  else if (get r serviceName now).2 then .proceeds
  else .errNotFound

/-- `Server.handleInspectRoute`, up to the registry existence check. -/
def handleInspectRouteGuard (r : Registry) (now : Int) (serviceName : String) : ToolOutcome :=
  if serviceName = "" then .errMissingParam
  else if (get r serviceName now).2 then .proceeds
  else .errNotFound

/-- `Server.handleGetStats`, up to the registry existence check: an
empty serviceName requests global stats and skips the check. -/
def handleGetStatsGuard (r : Registry) (now : Int) (serviceName : String) : ToolOutcome :=
  if serviceName = "" then .proceeds
  else if (get r serviceName now).2 then .proceeds
  else .errNotFound

/-- `Server.handleEnableAuthPolicy`, up to the registry existence check:
serviceName and authType must be present, authType must be one of basic,
bearer, oauth2, and the service must exist per `Registry.Get`. -/
def handleEnableAuthPolicyGuard (r : Registry) (now : Int)
    (serviceName authType : String) : ToolOutcome :=
  if serviceName = "" then .errMissingParam
  else if authType = "" then .errMissingParam
  else if authType ≠ "basic" ∧ authType ≠ "bearer" ∧ authType ≠ "oauth2" then .errInvalidAuthType
  else if (get r serviceName now).2 then .proceeds
  else .errNotFound

end Reg

/-! ## OpenAPI → operation compiler (internal/parser)

Embedding of `Parser.ParseSpec`, `Parser.parsePath`,
`Parser.parseOperation`, `Parser.parseParameter`,
`Parser.parseRequestBody` and `Parser.generateOperationID`.

The input mirrors the `openapi3` data the Go code reads: a `PathItem`
holds the eight optional operations (including Trace) plus path-level
parameters; parameter refs with a nil `Value` are `none`.  `parsePath`
iterates a Go map literal keyed by method name, so its iteration order
is randomized at runtime; the order is made an explicit argument (a
permutation of the seven keys the code puts in that map).  Likewise
`ParseSpec` iterates the paths map, so the paths arrive as a list in an
arbitrary order, each with its own method iteration order.
`generateMCPTool` never returns a non-nil error, so `parseOperation`'s
error branch is dead and it is modelled as total; the MCP tool payload
itself is not observed by any claim and is omitted.  Arbitrary JSON
schema default/enum values are modelled as strings.
-/

namespace Specs

/-- `openapi3.Schema`, restricted to what `parseParameter` reads:
the type list, the default and the enum values. -/
structure Schema where
  types : List String
  default : Option String
  enum : List String
deriving DecidableEq, Repr

/-- `openapi3.Parameter`, restricted to what `parseParameter` reads. -/
structure OAParameter where
  name : String
  paramIn : String
  required : Bool
  description : String
  schema : Option Schema
deriving DecidableEq, Repr

/-- `openapi3.ParameterRef`: `none` models a nil `Value`. -/
abbrev OAParameterRef := Option OAParameter

structure OAMediaType where
  schemaRef : String
deriving DecidableEq, Repr

/-- `openapi3.RequestBody`, restricted to what `parseRequestBody`
reads: the required flag, the description and the content map (as an
association list in Go map iteration order). -/
structure OARequestBody where
  required : Bool
  description : String
  content : List (String × OAMediaType)
deriving DecidableEq, Repr

/-- `openapi3.Operation`, restricted to what `parseOperation` reads. -/
structure OAOperation where
  operationID : String
  summary : String
  description : String
  parameters : List OAParameterRef
  requestBody : Option OARequestBody
deriving DecidableEq, Repr

/-- `openapi3.PathItem`: the eight optional operations (note that the
library defines Trace, which `parsePath` does not look at) plus the
path-level parameters. -/
structure PathItem where
  get : Option OAOperation
  post : Option OAOperation
  put : Option OAOperation
  delete : Option OAOperation
  patch : Option OAOperation
  head : Option OAOperation
  options : Option OAOperation
  trace : Option OAOperation
  parameters : List OAParameterRef
deriving DecidableEq, Repr

/-- `ParameterConfig`. -/
structure ParameterConfig where
  name : String
  paramIn : String
  required : Bool
  type : String
  description : String
  default : Option String
  enum : List String
deriving DecidableEq, Repr

/-- `RequestBodyConfig`. -/
structure RequestBodyConfig where
  required : Bool
  contentType : String
  schemaRef : Option String
  description : String
deriving DecidableEq, Repr

/-- `RouteConfig` (the MCP tool payload is omitted; it is derived from
the other fields and no claim observes it). -/
structure RouteConfig where
  path : String
  method : String
  operationID : String
  summary : String
  description : String
  parameters : List ParameterConfig
  requestBody : Option RequestBodyConfig
deriving DecidableEq, Repr

/-- `Parser.parseParameter`: the scalar type is the first entry of the
schema's type list, defaulting to "string"; default and enum come from
the schema when present. -/
def parseParameter (param : OAParameter) : ParameterConfig :=
  let base : ParameterConfig :=
    { name := param.name, paramIn := param.paramIn, required := param.required,
      type := "", description := param.description, default := none, enum := [] }
  match param.schema with
  | none => base
  | some schema =>
    { base with
      type := match schema.types with
              | t :: _ => t
              | [] => "string"
      default := schema.default
      enum := schema.enum }

/-- `Parser.parseRequestBody`: prefer application/json, then
application/x-www-form-urlencoded, then text/plain; otherwise fall back
to the first entry of the content map. -/
def parseRequestBody (requestBody : OARequestBody) : RequestBodyConfig :=
  let supported := ["application/json", "application/x-www-form-urlencoded", "text/plain"]
  let found := supported.findSome?
    (fun ct => (requestBody.content.lookup ct).map (fun mt => (ct, mt)))
  let chosen :=
    match found with
    | some p => some p
    | none =>
      match requestBody.content with
      | first :: _ => some first
      | [] => none
  match chosen with
  | some (ct, mt) =>
    { required := requestBody.required, contentType := ct,
      schemaRef := some mt.schemaRef, description := requestBody.description }
  | none =>
    { required := requestBody.required, contentType := "",
      schemaRef := none, description := requestBody.description }

/-- `strings.Title` applied to a path segment (no internal spaces):
capitalize the first character.  ASCII is assumed. -/
def titleSegment (s : String) : String :=
  s.capitalize

/-- `Parser.generateOperationID`: lowercase method, then each non-empty
path segment with surrounding braces stripped, the first segment
lowercased and the rest title-cased, concatenated. -/
def generateOperationID (method path : String) : String :=
  let parts := ((path.dropWhile (fun c => c = '/')).dropRightWhile (fun c => c = '/')).splitOn "/"
  let cleanParts := parts.foldl
    (fun acc part =>
      let clean := (part.dropWhile (fun c => c = '{' ∨ c = '}')).dropRightWhile
        (fun c => c = '{' ∨ c = '}')
      if clean.length > 0 then
        if acc.isEmpty then acc ++ [clean.toLower] else acc ++ [titleSegment clean]
      else acc)
    ([] : List String)
  let operationID := method.toLower
  match cleanParts with
  | [] => operationID
  | first :: rest =>
    operationID ++ titleSegment (String.join (first :: rest))

/-- `Parser.parseOperation`: build the route; generate an operation id
when the spec has none; collect path-level then operation-level
parameters, skipping refs with nil values; parse the request body when
present.  (`generateMCPTool` always succeeds, so no error case.) -/
def parseOperation (path method : String) (operation : OAOperation)
    (pathParams : List OAParameterRef) : RouteConfig :=
  let operationID :=
    if operation.operationID = "" then generateOperationID method path
    else operation.operationID
  let allParams := pathParams ++ operation.parameters
  let parameters := allParams.foldl
    (fun acc paramRef =>
      match paramRef with
      | none => acc
      | some p => acc ++ [parseParameter p])
    ([] : List ParameterConfig)
  { path := path, method := method, operationID := operationID,
    summary := operation.summary, description := operation.description,
    parameters := parameters,
    requestBody := operation.requestBody.map parseRequestBody }

/-- The method-name keys of the `operations` map literal in
`Parser.parsePath` (Trace is absent). -/
def parseMethods : List String :=
  ["GET", "POST", "PUT", "DELETE", "PATCH", "HEAD", "OPTIONS"]

/-- The `operations` map of `Parser.parsePath`: the operation stored
under each of its seven keys. -/
def lookupOp (item : PathItem) : String → Option OAOperation
  | "GET" => item.get
  | "POST" => item.post
  | "PUT" => item.put
  | "DELETE" => item.delete
  | "PATCH" => item.patch
  | "HEAD" => item.head
  | "OPTIONS" => item.options
  | _ => none

/-- `Parser.parsePath`: iterate the `operations` map in the given order
(a permutation of `parseMethods` at runtime), skipping methods without
an operation, and emit one route per defined operation. -/
def parsePath (methodOrder : List String) (path : String) (item : PathItem) :
    List RouteConfig :=
  methodOrder.foldl
    (fun acc method =>
      match lookupOp item method with
      | none => acc
      | some operation => acc ++ [parseOperation path method operation item.parameters])
    []

/-- `Parser.ParseSpec`: iterate the paths map (each entry carries the
method iteration order of its `parsePath` call) and concatenate the
routes. -/
def parseSpec (entries : List (String × PathItem × List String)) : List RouteConfig :=
  entries.foldl
    (fun acc e => acc ++ parsePath e.2.2 e.1 e.2.1)
    []

end Specs

/-! ## Version manager (internal/versioning)

Embedding of `Version.Compare`, `Version.IsCompatible`,
`VersionManager.GetCompatibleVersion`, `VersionManager.GetLatestVersion`
and `VersionManager.resolveVersionFromPath`.

The per-service `map[Version]*VersionedSpec` is an association list of
versioned specs keyed by their `Version` field (that is how `AddVersion`
populates the map); iteration order is the list order, and the
selection loops are proved order-insensitive where a claim needs it.
The functions below take the existing service's spec list directly: the
service-absent error branches of the Go methods are not involved in any
claim.  Go returns `(*VersionedSpec, error)` pairs, modelled as
`Option VSpec × Option String`.  `strings.Compare` compares UTF-8 byte
sequences, which orders strings exactly like Lean's character-list
order, embedded here as `strCmp`.
-/

namespace Ver

structure Version where
  major : Nat
  minor : Nat
  patch : Nat
  label : String
deriving DecidableEq, Repr

/-- `strings.Compare`, on character lists. -/
def strCmp : List Char → List Char → Int
  | [], [] => 0
  | [], _ :: _ => -1
  | _ :: _, [] => 1
  | a :: as, b :: bs =>
    if a < b then -1
    else if b < a then 1
    else strCmp as bs

/-- `Version.Compare`: lexicographic on (major, minor, patch, label). -/
def vcompare (v other : Version) : Int :=
  if v.major ≠ other.major then (if v.major < other.major then -1 else 1)
  else if v.minor ≠ other.minor then (if v.minor < other.minor then -1 else 1)
  else if v.patch ≠ other.patch then (if v.patch < other.patch then -1 else 1)
  else strCmp v.label.data other.label.data

/-- `Version.IsCompatible`: same major, and this version's minor is at
least the requested minor. -/
def isCompatible (v other : Version) : Bool :=
  v.major = other.major && v.minor ≥ other.minor

/-- `VersionedSpec`, restricted to the fields the claims observe: its
version and an identifier standing for the attached spec payload. -/
structure VSpec where
  version : Version
  specId : String
deriving DecidableEq, Repr

/-- The loop body shared by the selection loops in `GetLatestVersion`
and `GetCompatibleVersion`: a candidate satisfying `p` replaces the
current best when there is none yet or when its version compares
strictly greater. -/
def pickStep (p : VSpec → Bool) (best : Option VSpec) (s : VSpec) : Option VSpec :=
  if p s then
    match best with
    | none => some s
    | some b => if vcompare s.version b.version > 0 then some s else some b
  else best

/-- The shared shape of the selection loops in `GetLatestVersion` and
`GetCompatibleVersion`: scan the list, keeping the candidate with the
greatest version among those satisfying `p`; a tie keeps the earlier
candidate. -/
def pickBest (p : VSpec → Bool) (l : List VSpec) : Option VSpec :=
  l.foldl (pickStep p) none

/-- `VersionManager.GetLatestVersion` for an existing service: the
version-greatest entry (`nil` only for an empty map). -/
def getLatestVersion (l : List VSpec) : Option VSpec × Option String :=
  (pickBest (fun _ => true) l, none)

/-- `VersionManager.GetCompatibleVersion` for an existing service:
exact map lookup of the full requested version first; otherwise the
greatest compatible entry; otherwise a not-found error. -/
def getCompatibleVersion (l : List VSpec) (requestedVersion : Version) :
    Option VSpec × Option String :=
  match l.find? (fun s => s.version = requestedVersion) with
  | some spec => (some spec, none)
  | none =>
    match pickBest (fun s => isCompatible s.version requestedVersion) l with
    | some bestMatch => (some bestMatch, none)
    | none => (none, some "no compatible version found")

def charsToNat (ds : List Char) : Nat :=
  ds.foldl (fun n c => 10 * n + (c.toNat - '0'.toNat)) 0

/-- The anchored pattern of `resolveVersionFromPath`:
matching a path prefix of the shape /v{major} or /v{major}.{minor},
ended by a slash or the end of the string; major and minor are decimal
digit runs. -/
def pathVersion (path : String) : Option (Nat × Nat) :=
  match path.data with
  | '/' :: 'v' :: rest =>
    let d1 := rest.takeWhile (fun c => c.isDigit)
    let rest1 := rest.dropWhile (fun c => c.isDigit)
    if d1.isEmpty then none
    else
      match rest1 with
      | '.' :: rest2 =>
        let d2 := rest2.takeWhile (fun c => c.isDigit)
        let rest3 := rest2.dropWhile (fun c => c.isDigit)
        if d2.isEmpty then none
        else
          match rest3 with
          | [] => some (charsToNat d1, charsToNat d2)
          | '/' :: _ => some (charsToNat d1, charsToNat d2)
          | _ => none
      | [] => some (charsToNat d1, 0)
      | '/' :: _ => some (charsToNat d1, 0)
      | _ => none
  | _ => none

/-- `VersionManager.resolveVersionFromPath` for an existing service: no
version in the path resolves to the latest version; otherwise the
requested version is (major, minor, 0, "") and resolution goes through
`GetCompatibleVersion`. -/
def resolveVersionFromPath (l : List VSpec) (path : String) :
    Option VSpec × Option String :=
  match pathVersion path with
  | none => getLatestVersion l
  | some (major, minor) =>
    getCompatibleVersion l ⟨major, minor, 0, ""⟩

end Ver

/-! ## Concrete fixtures used by witnesses and counterexamples -/

namespace Fix

/-- Pre-request hook A: priority 100, always succeeds. -/
def hookA : Hooks.Hook Unit String :=
  ⟨"A", .preRequest, 100, fun s => (s, none)⟩

/-- Pre-request hook B: priority 50, always fails. -/
def hookB : Hooks.Hook Unit String :=
  ⟨"B", .preRequest, 50, fun s => (s, some "B failed")⟩

/-- Pre-request hook C: priority 10, always succeeds. -/
def hookC : Hooks.Hook Unit String :=
  ⟨"C", .preRequest, 10, fun s => (s, none)⟩

/-- The manager of scenario S1, after registering A, B and C. -/
def preManager : Hooks.Manager Unit String :=
  Hooks.registerHook (Hooks.registerHook (Hooks.registerHook
    (Hooks.newManager Unit String) hookA) hookB) hookC

/-- On-error hook L1: priority 100, always fails. -/
def hookL1 : Hooks.Hook Unit String :=
  ⟨"L1", .onError, 100, fun s => (s, some "L1 exploded")⟩

/-- On-error hook L2: priority 50, always succeeds. -/
def hookL2 : Hooks.Hook Unit String :=
  ⟨"L2", .onError, 50, fun s => (s, none)⟩

/-- A manager with two on-error hooks, the higher-priority one failing. -/
def errManager : Hooks.Manager Unit String :=
  Hooks.registerHook (Hooks.registerHook (Hooks.newManager Unit String) hookL1) hookL2

/-- A minimal operation with a fixed operationId. -/
def opStub (id : String) : Specs.OAOperation := ⟨id, "", "", [], none⟩

/-- A path item defining only a TRACE operation. -/
def traceOnlyItem : Specs.PathItem :=
  ⟨none, none, none, none, none, none, none, some (opStub "tr"), []⟩

/-- A path item defining GET and POST operations. -/
def getPostItem : Specs.PathItem :=
  ⟨some (opStub "g"), some (opStub "p"), none, none, none, none, none, none, []⟩

end Fix

/-! ## Theorems -/

/-- Helper: running `executeHooks` on `hs1 ++ hs2` when every hook of
`hs1` succeeds along the way first executes all of `hs1`, then continues
with `hs2` from the threaded context. -/
theorem executeHooks_append_ok {σ ε : Type} (hs1 hs2 : List (Hooks.Hook σ ε)) (s s' : σ)
    (h1 : Hooks.executeHooks hs1 s = (s', hs1.map Hooks.Hook.name, none)) :
    Hooks.executeHooks (hs1 ++ hs2) s =
      ((Hooks.executeHooks hs2 s').1,
        hs1.map Hooks.Hook.name ++ (Hooks.executeHooks hs2 s').2.1,
        (Hooks.executeHooks hs2 s').2.2) := by
  induction hs1 generalizing s with
  | nil =>
    have hs : s = s' := congrArg Prod.fst h1
    subst hs
    simp
  | cons h rest ih =>
    rcases he : h.exec s with ⟨sm, e⟩
    cases e with
    | some err =>
      exfalso
      simp only [Hooks.executeHooks, he] at h1
      exact Option.noConfusion (congrArg (fun q => q.2.2) h1)
    | none =>
      simp only [Hooks.executeHooks, he, List.cons_append, List.map_cons] at h1 ⊢
      have h1' : Hooks.executeHooks rest sm = (s', rest.map Hooks.Hook.name, none) := by
        have hfst := congrArg Prod.fst h1
        have htr := congrArg (fun q => q.2.1) h1
        have herr := congrArg (fun q => q.2.2) h1
        simp only at hfst htr herr
        exact Prod.ext hfst (Prod.ext (by simpa using htr) herr)
      simp only [List.append_eq]
      rw [ih sm h1']

/-- Helper: running `executeHooks` on `hs1 ++ h :: hs2` when every hook
of `hs1` succeeds and `h` then fails executes exactly `hs1` and `h`,
skips `hs2`, and returns `h`'s error wrapped with `h`'s name. -/
theorem executeHooks_first_failure {σ ε : Type} (hs1 hs2 : List (Hooks.Hook σ ε))
    (h : Hooks.Hook σ ε) (s s' : σ) (e : ε)
    (h1 : Hooks.executeHooks hs1 s = (s', hs1.map Hooks.Hook.name, none))
    (h2 : (h.exec s').2 = some e) :
    Hooks.executeHooks (hs1 ++ h :: hs2) s =
      ((h.exec s').1, hs1.map Hooks.Hook.name ++ [h.name], some ⟨h.name, e⟩) := by
  rw [executeHooks_append_ok hs1 (h :: hs2) s s' h1]
  rcases he : h.exec s' with ⟨sm, e'⟩
  rw [he] at h2
  simp only at h2
  subst h2
  simp [Hooks.executeHooks, he]

/-- C2: executing the pre-request phase runs hooks in order until the
first failing hook: every hook before it executes, the failing hook
executes, no later hook executes, and the phase's result is the failing
hook's error (wrapped with the hook's name, as `fmt.Errorf` with `%w`
does, so the error chain is that first error). -/
theorem preRequestHooks_fail_fast {σ ε : Type} (m : Hooks.Manager σ ε)
    (hs1 hs2 : List (Hooks.Hook σ ε)) (h : Hooks.Hook σ ε) (s s' : σ) (e : ε)
    (hphase : m.hooks .preRequest = hs1 ++ h :: hs2)
    (hok : Hooks.executeHooks hs1 s = (s', hs1.map Hooks.Hook.name, none))
    (hfail : (h.exec s').2 = some e) :
    Hooks.executePreRequestHooks m s =
      ((h.exec s').1, hs1.map Hooks.Hook.name ++ [h.name], some ⟨h.name, e⟩) := by
  rw [Hooks.executePreRequestHooks, hphase]
  exact executeHooks_first_failure hs1 hs2 h s s' e hok hfail

/-- Witness for C2, scenario S1: hooks A (100), B (50, failing), C (10)
registered as pre-request hooks; A and B execute, C does not, and the
result carries B's error. -/
theorem preRequestHooks_fail_fast_witness :
    Hooks.executePreRequestHooks Fix.preManager () =
      ((), ["A", "B"], some ⟨"B", "B failed"⟩) := by
  have h := preRequestHooks_fail_fast Fix.preManager [Fix.hookA] [Fix.hookC] Fix.hookB
    () () "B failed" rfl rfl rfl
  simpa using h

/-- C1 counterexample: with on-error hooks L1 (priority 100, failing)
and L2 (priority 50) registered, the on-error phase executes only L1 —
L2 is skipped — and the phase's result is L1's wrapped error, not the
error that triggered the phase.  The claim predicts that both hooks run
and that an on-error hook's failure is not surfaced. -/
theorem errorHooks_counterexample :
    (Hooks.executeErrorHooks Fix.errManager ()).2.1 = ["L1"]
    ∧ (Hooks.executeErrorHooks Fix.errManager ()).2.1 ≠ ["L1", "L2"]
    ∧ (Hooks.executeErrorHooks Fix.errManager ()).2.2 = some ⟨"L1", "L1 exploded"⟩ := by
  refine ⟨rfl, ?_, rfl⟩
  decide

/-- C1 amended: the on-error phase is fail-fast exactly like the other
phases — `ExecuteErrorHooks` runs on-error hooks in order until the
first failing hook, skips the rest, and returns that hook's error
(wrapped with its name); it does not surface the error that triggered
the phase. -/
theorem errorHooks_fail_fast {σ ε : Type} (m : Hooks.Manager σ ε)
    (hs1 hs2 : List (Hooks.Hook σ ε)) (h : Hooks.Hook σ ε) (s s' : σ) (e : ε)
    (hphase : m.hooks .onError = hs1 ++ h :: hs2)
    (hok : Hooks.executeHooks hs1 s = (s', hs1.map Hooks.Hook.name, none))
    (hfail : (h.exec s').2 = some e) :
    Hooks.executeErrorHooks m s =
      ((h.exec s').1, hs1.map Hooks.Hook.name ++ [h.name], some ⟨h.name, e⟩) := by
  rw [Hooks.executeErrorHooks, hphase]
  exact executeHooks_first_failure hs1 hs2 h s s' e hok hfail

/-- Witness for the amended C1: the L1/L2 on-error manager, with L1
failing first: only L1 executes and its wrapped error is returned. -/
theorem errorHooks_fail_fast_witness :
    Hooks.executeErrorHooks Fix.errManager () =
      ((), ["L1"], some ⟨"L1", "L1 exploded"⟩) := by
  have h := errorHooks_fail_fast Fix.errManager [] [Fix.hookL2] Fix.hookL1
    () () "L1 exploded" rfl rfl rfl
  simpa using h

/-- Helper: none of `onFailure`, `onSuccess`, `setState` changes the
breaker configuration, and neither does a run of failures. -/
theorem runFailures_config (cb : CB.CircuitBreaker) (ts : List Int) :
    (CB.runFailures cb ts).config = cb.config := by
  induction ts generalizing cb with
  | nil => rfl
  | cons now rest ih =>
    rw [CB.runFailures, ih]
    unfold CB.onFailure CB.setState
    rcases cb.state
    · simp only
      split
      · rfl
      · rfl
    · rfl
    · rfl

/-- Helper: a closed breaker stays closed, with its failure count
growing by one per failure, as long as the count stays below
`maxFailures`; `nextAttempt` is untouched. -/
theorem runFailures_stays_closed (ts : List Int) :
    ∀ cb : CB.CircuitBreaker, cb.state = .closed →
    cb.failures + ts.length < cb.config.maxFailures →
    (CB.runFailures cb ts).state = .closed
    ∧ (CB.runFailures cb ts).failures = cb.failures + ts.length
    ∧ (CB.runFailures cb ts).nextAttempt = cb.nextAttempt := by
  induction ts with
  | nil => intro cb hst _; simpa [CB.runFailures] using hst
  | cons now rest ih =>
    intro cb hst hlt
    rw [CB.runFailures]
    have hone : CB.onFailure cb now =
        { cb with failures := cb.failures + 1, lastFailureTime := now, successes := 0 } := by
      unfold CB.onFailure
      rw [hst]
      simp only
      rw [if_neg]
      simp only [List.length_cons] at hlt
      omega
    rw [hone]
    have h := ih { cb with failures := cb.failures + 1, lastFailureTime := now, successes := 0 }
      hst (by simp only [List.length_cons] at hlt; simpa using by omega)
    simp only [List.length_cons]
    exact ⟨h.1, by rw [h.2.1]; simp; omega, h.2.2⟩

/-- Helper: an open breaker stays open under further failures, and its
`nextAttempt` does not move. -/
theorem runFailures_open_absorbing (ts : List Int) :
    ∀ cb : CB.CircuitBreaker, cb.state = .«open» →
    (CB.runFailures cb ts).state = .«open»
    ∧ (CB.runFailures cb ts).nextAttempt = cb.nextAttempt := by
  induction ts with
  | nil => intro cb hst; exact ⟨hst, rfl⟩
  | cons now rest ih =>
    intro cb hst
    rw [CB.runFailures]
    have hone : CB.onFailure cb now =
        { cb with failures := cb.failures + 1, lastFailureTime := now, successes := 0 } := by
      unfold CB.onFailure
      rw [hst]
    rw [hone]
    exact ih _ hst

/-- Helper: splitting a run of failures. -/
theorem runFailures_append (cb : CB.CircuitBreaker) (xs ys : List Int) :
    CB.runFailures cb (xs ++ ys) = CB.runFailures (CB.runFailures cb xs) ys := by
  induction xs generalizing cb with
  | nil => rfl
  | cons now rest ih => rw [List.cons_append, CB.runFailures, CB.runFailures, ih]

/-- Helper: from a closed breaker whose failure count is one short of
the limit, a single failure opens the breaker and schedules
`nextAttempt` at that failure's time plus `resetTimeout`. -/
theorem onFailure_opens (cb : CB.CircuitBreaker) (now : Int)
    (hst : cb.state = .closed)
    (hcnt : cb.config.maxFailures ≤ cb.failures + 1) :
    (CB.onFailure cb now).state = .«open»
    ∧ (CB.onFailure cb now).nextAttempt = now + cb.config.resetTimeout := by
  unfold CB.onFailure
  rw [hst]
  simp only
  rw [if_pos (by simpa using hcnt)]
  exact ⟨rfl, rfl⟩

/-- C3: a breaker that starts closed with a zero failure counter opens
under a run of consecutive failures exactly when the run reaches
`maxFailures` — it is still closed after any shorter run, and open after
any run at least that long; when the run has length exactly
`maxFailures`, `nextAttempt` is the last failure's time plus
`resetTimeout`; any success while closed resets the failure counter to
zero; and every transition to open sets `nextAttempt` to the transition
time plus `resetTimeout`. -/
theorem circuitBreaker_opens_at_maxFailures (cb : CB.CircuitBreaker) (ts : List Int)
    (hst : cb.state = .closed) (hf0 : cb.failures = 0)
    (hmax : 0 < cb.config.maxFailures) :
    ((CB.runFailures cb ts).state = .«open» ↔ cb.config.maxFailures ≤ ts.length)
    ∧ (∀ ts' last, ts = ts' ++ [last] → ts.length = cb.config.maxFailures →
        (CB.runFailures cb ts).nextAttempt = last + cb.config.resetTimeout)
    ∧ (∀ (cb' : CB.CircuitBreaker) (t : Int), cb'.state = .closed →
        (CB.onSuccess cb' t).failures = 0)
    ∧ (∀ cb' : CB.CircuitBreaker, ∀ t : Int,
        (CB.setState cb' .«open» t).nextAttempt = t + cb'.config.resetTimeout) := by
  refine ⟨⟨?_, ?_⟩, ?_, ?_, ?_⟩
  · intro hopen
    by_contra hlt
    have h := runFailures_stays_closed ts cb hst (by omega)
    rw [h.1] at hopen
    exact CB.CBState.noConfusion hopen
  · intro hge
    have hsplit : ts = ts.take cb.config.maxFailures ++ ts.drop cb.config.maxFailures :=
      (List.take_append_drop cb.config.maxFailures ts).symm
    have hlen1 : (ts.take cb.config.maxFailures).length = cb.config.maxFailures := by
      rw [List.length_take]; omega
    rcases List.eq_nil_or_concat (ts.take cb.config.maxFailures) with hnil | ⟨l, a, hconcat⟩
    · rw [hnil] at hlen1; simp at hlen1; omega
    · rw [hsplit, runFailures_append, hconcat, List.concat_eq_append, runFailures_append]
      have hlen2 : l.length + 1 = cb.config.maxFailures := by
        rw [hconcat] at hlen1
        simpa [List.concat_eq_append] using hlen1
      have hclosed := runFailures_stays_closed l cb hst (by omega)
      have hopen := onFailure_opens (CB.runFailures cb l) a hclosed.1 (by
        rw [hclosed.2.1, hf0, runFailures_config]; omega)
      rw [show CB.runFailures (CB.runFailures cb l) [a]
            = CB.onFailure (CB.runFailures cb l) a from rfl]
      exact (runFailures_open_absorbing _ _ hopen.1).1
  · intro ts' last hts hlen
    subst hts
    rw [runFailures_append]
    have hlen' : ts'.length + 1 = cb.config.maxFailures := by
      simpa using hlen
    have hclosed := runFailures_stays_closed ts' cb hst (by omega)
    have hopen := onFailure_opens (CB.runFailures cb ts') last
      hclosed.1 (by rw [hclosed.2.1, hf0, runFailures_config]; omega)
    rw [show CB.runFailures (CB.runFailures cb ts') [last]
          = CB.onFailure (CB.runFailures cb ts') last from rfl]
    rw [hopen.2, runFailures_config]
  · intro cb' t hclosed'
    unfold CB.onSuccess
    rw [hclosed']
  · intro cb' t
    rfl

/-- Witness for C3: maxFailures 3; three failures at times 1, 2, 3 open
the breaker, two do not, and `nextAttempt` lands at `3 + resetTimeout`;
a success while closed resets the failure counter. -/
theorem circuitBreaker_opens_at_maxFailures_witness :
    (CB.runFailures (CB.newCircuitBreaker ⟨3, 100, 2, 1000⟩) [1, 2, 3]).state = .«open»
    ∧ (CB.runFailures (CB.newCircuitBreaker ⟨3, 100, 2, 1000⟩) [1, 2]).state ≠ .«open»
    ∧ (CB.runFailures (CB.newCircuitBreaker ⟨3, 100, 2, 1000⟩) [1, 2, 3]).nextAttempt = 103
    ∧ (CB.onSuccess (CB.onFailure (CB.newCircuitBreaker ⟨3, 100, 2, 1000⟩) 1) 2).failures = 0 := by
  have h3 := circuitBreaker_opens_at_maxFailures (CB.newCircuitBreaker ⟨3, 100, 2, 1000⟩)
    [1, 2, 3] rfl rfl (by decide)
  have h2 := circuitBreaker_opens_at_maxFailures (CB.newCircuitBreaker ⟨3, 100, 2, 1000⟩)
    [1, 2] rfl rfl (by decide)
  refine ⟨h3.1.mpr (by decide), ?_, ?_,
    h3.2.2.1 (CB.onFailure (CB.newCircuitBreaker ⟨3, 100, 2, 1000⟩) 1) 2 rfl⟩
  · intro hc
    have := h2.1.mp hc
    exact absurd this (by decide)
  · have := h3.2.1 [1, 2] 3 rfl (by decide)
    simpa using this


/-- Helper: a successful association-list lookup locates a stored pair. -/
theorem lookup_mem {α : Type} [DecidableEq α] {β : Type} :
    ∀ (r : List (α × β)) (k : α) (v : β), r.lookup k = some v → (k, v) ∈ r := by
  intro r k v h
  induction r with
  | nil => exact Option.noConfusion h
  | cons e rest ih =>
    rw [List.lookup] at h
    cases hbe : (k == e.1) with
    | true =>
      rw [hbe] at h
      simp only at h
      obtain rfl : e.2 = v := Option.some.inj h
      exact List.mem_cons.mpr (.inl (Prod.ext (eq_of_beq hbe) rfl))
    | false =>
      rw [hbe] at h
      simp only at h
      exact List.mem_cons.mpr (.inr (ih h))

/-- C9: the cleanup janitor never deletes an entry with positive TTL
whose age is below twice its TTL, and whenever the deletion condition
holds for an entry, that entry has been expired for more than one full
extra TTL period. -/
theorem cleanup_double_ttl (r : Reg.Registry) (name : String) (s : Reg.SpecInfo) (now : Int)
    (hmem : (name, s) ∈ r) (_httl : 0 < s.ttl) :
    (now - s.fetchedAt < 2 * s.ttl → (name, s) ∈ Reg.cleanupExpired r now)
    ∧ (Reg.cleanupRemoves s now = true → s.ttl < now - (s.fetchedAt + s.ttl)) := by
  constructor
  · intro hage
    rw [Reg.cleanupExpired, List.mem_filter]
    refine ⟨hmem, ?_⟩
    have hrem : Reg.cleanupRemoves s now = false := by
      rw [Reg.cleanupRemoves]
      have h2 : decide (now - (s.fetchedAt + s.ttl) > s.ttl) = false := by
        rw [decide_eq_false_iff_not]
        omega
      rw [h2, Bool.and_false]
    simp [hrem]
  · intro hrem
    rw [Reg.cleanupRemoves, Bool.and_eq_true] at hrem
    have h2 := hrem.2
    rw [decide_eq_true_eq] at h2
    omega

/-- Witness for C9: an entry fetched at 0 with TTL 100, inspected at
time 150 (expired but younger than 2×TTL): it survives cleanup; and the
deletion condition at time 201 implies it had been expired for more than
one extra TTL. -/
theorem cleanup_double_ttl_witness :
    ("a", (⟨"a", "u", 0, 100⟩ : Reg.SpecInfo))
        ∈ Reg.cleanupExpired [("a", ⟨"a", "u", 0, 100⟩)] 150
    ∧ (Reg.cleanupRemoves (⟨"a", "u", 0, 100⟩ : Reg.SpecInfo) 201 = true →
        (100 : Int) < 201 - (0 + 100)) := by
  have h150 := cleanup_double_ttl [("a", ⟨"a", "u", 0, 100⟩)] "a" ⟨"a", "u", 0, 100⟩ 150
    (by simp) (by decide)
  have h201 := cleanup_double_ttl [("a", ⟨"a", "u", 0, 100⟩)] "a" ⟨"a", "u", 0, 100⟩ 201
    (by simp) (by decide)
  exact ⟨h150.1 (by decide), h201.2⟩

/-- C10: a registered entry whose positive TTL has elapsed is still in
the registry — List returns it and Get returns it flagged not fresh —
yet the refreshSpec, inspectRoute, getStats and enableAuthPolicy tool
handlers all report the service as not found, because they treat Get's
freshness flag as existence. -/
theorem staleEntry_reported_not_found (r : Reg.Registry) (name authType : String)
    (s : Reg.SpecInfo) (now : Int)
    (hlk : r.lookup name = some s) (httl : 0 < s.ttl)
    (hexp : s.ttl < now - s.fetchedAt) (hname : name ≠ "")
    (hat : authType = "basic" ∨ authType = "bearer" ∨ authType = "oauth2") :
    s ∈ Reg.listSpecs r
    ∧ Reg.get r name now = (some s, false)
    ∧ Reg.handleRefreshSpecGuard r now name = .errNotFound
    ∧ Reg.handleInspectRouteGuard r now name = .errNotFound
    ∧ Reg.handleGetStatsGuard r now name = .errNotFound
    ∧ Reg.handleEnableAuthPolicyGuard r now name authType = .errNotFound := by
  have hexp' : Reg.isExpired s now = true := by
    rw [Reg.isExpired, if_neg (by omega)]
    rw [decide_eq_true_eq]
    omega
  have hget : Reg.get r name now = (some s, false) := by
    rw [Reg.get, hlk]
    simp only [hexp', if_pos]
  refine ⟨?_, hget, ?_, ?_, ?_, ?_⟩
  · rw [Reg.listSpecs]
    exact List.mem_map_of_mem _ (lookup_mem r name s hlk)
  · rw [Reg.handleRefreshSpecGuard, if_neg hname, hget]
    rfl
  · rw [Reg.handleInspectRouteGuard, if_neg hname, hget]
    rfl
  · rw [Reg.handleGetStatsGuard, if_neg hname, hget]
    rfl
  · have hat' : ¬ (authType = "") := by
      rcases hat with h | h | h <;> rw [h] <;> decide
    have hvalid : ¬ (authType ≠ "basic" ∧ authType ≠ "bearer" ∧ authType ≠ "oauth2") := by
      rcases hat with h | h | h <;> rw [h] <;> decide
    rw [Reg.handleEnableAuthPolicyGuard, if_neg hname, if_neg hat', if_neg hvalid, hget]
    rfl

/-- Witness for C10: service `a`, fetched at 0 with TTL 100, observed
at time 150: List still returns it, Get returns it stale, and all four
handlers report not found. -/
theorem staleEntry_reported_not_found_witness :
    (⟨"a", "u", 0, 100⟩ : Reg.SpecInfo) ∈ Reg.listSpecs [("a", ⟨"a", "u", 0, 100⟩)]
    ∧ Reg.get [("a", ⟨"a", "u", 0, 100⟩)] "a" 150 = (some ⟨"a", "u", 0, 100⟩, false)
    ∧ Reg.handleRefreshSpecGuard [("a", ⟨"a", "u", 0, 100⟩)] 150 "a" = .errNotFound
    ∧ Reg.handleInspectRouteGuard [("a", ⟨"a", "u", 0, 100⟩)] 150 "a" = .errNotFound
    ∧ Reg.handleGetStatsGuard [("a", ⟨"a", "u", 0, 100⟩)] 150 "a" = .errNotFound
    ∧ Reg.handleEnableAuthPolicyGuard [("a", ⟨"a", "u", 0, 100⟩)] 150 "a" "bearer"
        = .errNotFound := by
  exact staleEntry_reported_not_found [("a", ⟨"a", "u", 0, 100⟩)] "a" "bearer"
    ⟨"a", "u", 0, 100⟩ 150 rfl (by decide) (by decide) (by decide) (Or.inr (Or.inl rfl))

/-- C8 (code bug): the comment inside `getClientIP` says the first of
the comma-separated X-Forwarded-For addresses is taken, and the spec
documents the key as the first non-empty component, but the function
returns the entire comma-joined header value.  At a two-hop header the
code's key is the full header string, not the first address. -/
theorem getClientIP_full_header_bug :
    RL.getClientIP ⟨[("X-Forwarded-For", "203.0.113.5, 70.41.3.18")], "10.0.0.1:1234"⟩
      = "203.0.113.5, 70.41.3.18"
    ∧ RL.specFirstForwardedComponent
        ⟨[("X-Forwarded-For", "203.0.113.5, 70.41.3.18")], "10.0.0.1:1234"⟩
      = "203.0.113.5"
    ∧ RL.defaultKeyGenerator ⟨[("X-Forwarded-For", "203.0.113.5, 70.41.3.18")], "10.0.0.1:1234"⟩
      ≠ RL.specFirstForwardedComponent
        ⟨[("X-Forwarded-For", "203.0.113.5, 70.41.3.18")], "10.0.0.1:1234"⟩ := by
  refine ⟨rfl, ?_, ?_⟩
  · decide
  · decide

/-- Helper: the parameter-collection loop of `parseOperation` appends
the parsed value of every non-nil ref, in order. -/
theorem paramsFold_eq (l : List Specs.OAParameterRef) :
    ∀ acc : List Specs.ParameterConfig,
    l.foldl
      (fun acc paramRef =>
        match paramRef with
        | none => acc
        | some p => acc ++ [Specs.parseParameter p]) acc
    = acc ++ (l.filterMap id).map Specs.parseParameter := by
  induction l with
  | nil => intro acc; simp
  | cons r rest ih =>
    intro acc
    cases r with
    | none => simpa using ih acc
    | some p =>
      rw [List.foldl_cons, ih (acc ++ [Specs.parseParameter p])]
      simp

/-- C6 amended: a compiled operation's parameter list is the path-level
parameters (in spec order, nil refs skipped) followed by the
operation-level parameters; nothing is deduplicated — when both levels
carry a parameter with the same (location, name) key, both entries are
kept, so the per-key count is the sum of the per-level counts. -/
theorem params_concat_no_dedup (path method : String) (operation : Specs.OAOperation)
    (pathParams : List Specs.OAParameterRef) :
    (Specs.parseOperation path method operation pathParams).parameters
      = (pathParams.filterMap id).map Specs.parseParameter
        ++ (operation.parameters.filterMap id).map Specs.parseParameter
    ∧ ∀ loc nm : String,
        (Specs.parseOperation path method operation pathParams).parameters.countP
            (fun q => decide (q.paramIn = loc ∧ q.name = nm))
          = ((pathParams.filterMap id).map Specs.parseParameter).countP
              (fun q => decide (q.paramIn = loc ∧ q.name = nm))
            + ((operation.parameters.filterMap id).map Specs.parseParameter).countP
              (fun q => decide (q.paramIn = loc ∧ q.name = nm)) := by
  have hmain : (Specs.parseOperation path method operation pathParams).parameters
      = (pathParams.filterMap id).map Specs.parseParameter
        ++ (operation.parameters.filterMap id).map Specs.parseParameter := by
    show (pathParams ++ operation.parameters).foldl
        (fun acc paramRef =>
          match paramRef with
          | none => acc
          | some p => acc ++ [Specs.parseParameter p]) []
      = _
    rw [paramsFold_eq, List.filterMap_append, List.map_append]
    rfl
  refine ⟨hmain, fun loc nm => ?_⟩
  rw [hmain, List.countP_append]

/-- C6 counterexample: a path-level and an operation-level parameter
sharing the key (query, a): the compiled parameter list keeps both
entries, path-level first, whereas the claim predicts only the
operation-level entry. -/
theorem params_dedup_counterexample :
    (Specs.parseOperation "/x" "GET"
        ⟨"op1", "", "", [some ⟨"a", "query", true, "", none⟩], none⟩
        [some ⟨"a", "query", false, "", none⟩]).parameters
      = [Specs.parseParameter ⟨"a", "query", false, "", none⟩,
         Specs.parseParameter ⟨"a", "query", true, "", none⟩]
    ∧ (Specs.parseOperation "/x" "GET"
        ⟨"op1", "", "", [some ⟨"a", "query", true, "", none⟩], none⟩
        [some ⟨"a", "query", false, "", none⟩]).parameters
      ≠ [Specs.parseParameter ⟨"a", "query", true, "", none⟩] := by
  exact ⟨by decide, by decide⟩

/-- Helper: `parsePath` is the filterMap of the method lookup over the
iteration order. -/
theorem parsePath_eq (ord : List String) (p : String) (item : Specs.PathItem) :
    Specs.parsePath ord p item
      = ord.filterMap (fun m => (Specs.lookupOp item m).map
          (fun op => Specs.parseOperation p m op item.parameters)) := by
  rw [Specs.parsePath]
  suffices h : ∀ acc,
      ord.foldl
        (fun acc method =>
          match Specs.lookupOp item method with
          | none => acc
          | some operation => acc ++ [Specs.parseOperation p method operation item.parameters])
        acc
      = acc ++ ord.filterMap (fun m => (Specs.lookupOp item m).map
          (fun op => Specs.parseOperation p m op item.parameters)) by
    simpa using h []
  induction ord with
  | nil => intro acc; simp
  | cons m' rest ih =>
    intro acc
    rcases hop : Specs.lookupOp item m' with - | op
    · rw [List.foldl_cons]
      simp only [hop]
      rw [ih acc, List.filterMap_cons]
      simp [hop]
    · rw [List.foldl_cons]
      simp only [hop]
      rw [ih (acc ++ [Specs.parseOperation p m' op item.parameters]), List.filterMap_cons]
      simp [hop]

/-- Helper: every route emitted by `parsePath` carries the path it was
compiled from. -/
theorem parsePath_route_path (ord : List String) (p : String) (item : Specs.PathItem) :
    ∀ r ∈ Specs.parsePath ord p item, r.path = p := by
  intro r hr
  rw [parsePath_eq] at hr
  obtain ⟨m, -, hm⟩ := List.mem_filterMap.mp hr
  rcases hop : Specs.lookupOp item m with - | op
  · rw [hop] at hm; exact Option.noConfusion hm
  · rw [hop] at hm
    obtain rfl := Option.some.inj hm
    rfl

/-- Helper: a method outside the seven keys of the `operations` map
literal has no entry. -/
theorem lookupOp_eq_none (item : Specs.PathItem) (m : String)
    (hm : m ∉ Specs.parseMethods) : Specs.lookupOp item m = none := by
  rw [Specs.parseMethods] at hm
  simp only [List.mem_cons, not_or] at hm
  obtain ⟨h1, h2, h3, h4, h5, h6, h7, -⟩ := hm
  unfold Specs.lookupOp
  split <;> simp_all

/-- Helper: with a duplicate-free iteration order, `parsePath` emits
exactly one route for method `m` when the order lists `m` and the path
item defines it, and none otherwise. -/
theorem parsePath_countP_method (p : String) (item : Specs.PathItem) (m : String) :
    ∀ ord : List String, ord.Nodup →
    (Specs.parsePath ord p item).countP (fun r => decide (r.method = m))
      = if m ∈ ord ∧ (Specs.lookupOp item m).isSome then 1 else 0 := by
  intro ord
  induction ord with
  | nil =>
    intro _
    rw [parsePath_eq]
    simp
  | cons m' rest ih =>
    intro hnd
    have hnd' := (List.nodup_cons.mp hnd).2
    have hm' := (List.nodup_cons.mp hnd).1
    rw [parsePath_eq]
    rw [parsePath_eq] at ih
    rcases hop : Specs.lookupOp item m' with - | op
    · rw [List.filterMap_cons_none (by rw [hop]; rfl), ih hnd']
      by_cases hmem : m = m'
      · subst hmem
        simp [hop, List.mem_cons]
      · simp [List.mem_cons, hmem]
    · rw [List.filterMap_cons_some (by rw [hop]; rfl), List.countP_cons, ih hnd']
      by_cases hmem : m = m'
      · subst hmem
        have hnotrest : ¬ (m ∈ rest ∧ (Specs.lookupOp item m).isSome = true) :=
          fun hc => hm' hc.1
        have hsome : (Specs.lookupOp item m).isSome = true := by rw [hop]; rfl
        rw [if_neg hnotrest]
        simp [hsome, show (Specs.parseOperation p m op item.parameters).method = m from rfl]
      · have hd : decide ((Specs.parseOperation p m' op item.parameters).method = m) = false := by
          rw [decide_eq_false_iff_not]
          show ¬ m' = m
          exact fun hc => hmem hc.symm
        simp only [hd, Bool.false_eq_true, if_false, Nat.add_zero]
        by_cases hr : m ∈ rest ∧ (Specs.lookupOp item m).isSome = true
        · rw [if_pos hr, if_pos ⟨List.mem_cons_of_mem m' hr.1, hr.2⟩]
        · rw [if_neg hr, if_neg (by
            rintro ⟨hc1, hc2⟩
            rcases List.mem_cons.mp hc1 with h | h
            · exact hmem h
            · exact hr ⟨h, hc2⟩)]

/-- Helper: `ParseSpec` concatenates the per-path route lists. -/
theorem parseSpec_eq (entries : List (String × Specs.PathItem × List String)) :
    Specs.parseSpec entries
      = (entries.map (fun e => Specs.parsePath e.2.2 e.1 e.2.1)).flatten := by
  rw [Specs.parseSpec]
  suffices h : ∀ acc,
      entries.foldl (fun acc e => acc ++ Specs.parsePath e.2.2 e.1 e.2.1) acc
      = acc ++ (entries.map (fun e => Specs.parsePath e.2.2 e.1 e.2.1)).flatten by
    simpa using h []
  induction entries with
  | nil => intro acc; simp
  | cons e rest ih =>
    intro acc
    rw [List.foldl_cons, ih, List.map_cons, List.flatten_cons, List.append_assoc]

/-- Helper: a path's routes never count towards a different path. -/
theorem parsePath_countP_zero (ord : List String) (q : String) (item : Specs.PathItem)
    (p m : String) (hne : q ≠ p) :
    (Specs.parsePath ord q item).countP (fun r => decide (r.path = p ∧ r.method = m)) = 0 := by
  rw [List.countP_eq_zero]
  intro r hr
  have hp := parsePath_route_path ord q item r hr
  simp [hp, hne]

/-- Helper: entries registered under other service paths contribute no
route counted for path `p`. -/
theorem parseSpec_countP_zero (p m : String) :
    ∀ entries : List (String × Specs.PathItem × List String),
    p ∉ entries.map (fun e => e.1) →
    (Specs.parseSpec entries).countP (fun r => decide (r.path = p ∧ r.method = m)) = 0 := by
  intro entries
  induction entries with
  | nil => intro _; rw [parseSpec_eq]; simp
  | cons e rest ih =>
    intro hp
    rw [parseSpec_eq, List.map_cons, List.flatten_cons, List.countP_append]
    rw [List.map_cons, List.mem_cons, not_or] at hp
    rw [parsePath_countP_zero _ _ _ _ _ (fun hc => hp.1 hc.symm)]
    rw [← parseSpec_eq] at *
    rw [ih hp.2]

/-- C5 amended: for every parsed OpenAPI tree, the compiler emits
exactly one Operation for each (path, method) pair that defines an
operation, for each of the seven methods GET, POST, PUT, DELETE, PATCH,
HEAD and OPTIONS — TRACE operations are ignored — regardless of the
random Go map iteration orders; the order of the emitted list follows
those iteration orders and is therefore not stable. -/
theorem compiler_one_route_per_path_method
    (entries : List (String × Specs.PathItem × List String))
    (p m : String) (item : Specs.PathItem) (ord : List String)
    (hmem : (p, item, ord) ∈ entries)
    (hkeys : (entries.map (fun e => e.1)).Nodup)
    (hperm : ∀ e ∈ entries, e.2.2.Perm Specs.parseMethods) :
    (Specs.parseSpec entries).countP (fun r => decide (r.path = p ∧ r.method = m))
      = if (Specs.lookupOp item m).isSome then 1 else 0 := by
  induction entries with
  | nil => cases hmem
  | cons e rest ih =>
    rw [parseSpec_eq, List.map_cons, List.flatten_cons, List.countP_append, ← parseSpec_eq]
    rcases List.mem_cons.mp hmem with heq | hmem'
    · obtain rfl := heq.symm
      have hkey : p ∉ rest.map (fun e => e.1) := by
        rw [List.map_cons] at hkeys
        exact (List.nodup_cons.mp hkeys).1
      rw [parseSpec_countP_zero p m rest hkey, Nat.add_zero]
      have hcongr : (Specs.parsePath ord p item).countP
            (fun r => decide (r.path = p ∧ r.method = m))
          = (Specs.parsePath ord p item).countP (fun r => decide (r.method = m)) := by
        apply List.countP_congr
        intro r hr
        have hp := parsePath_route_path ord p item r hr
        simp [hp]
      have hpm : ord.Perm Specs.parseMethods := hperm (p, item, ord) (List.mem_cons_self _ _)
      have hnodup : ord.Nodup := hpm.nodup_iff.mpr (by decide)
      rw [hcongr, parsePath_countP_method p item m ord hnodup]
      rcases hsome : (Specs.lookupOp item m).isSome with - | -
      · rw [if_neg (by simp)]
        rfl
      · have hmm : m ∈ Specs.parseMethods := by
          by_contra hc
          rw [lookupOp_eq_none item m hc] at hsome
          exact Bool.noConfusion hsome
        rw [if_pos ⟨hpm.mem_iff.mpr hmm, rfl⟩]
        rfl
    · have hkeyne : e.1 ≠ p := by
        rw [List.map_cons] at hkeys
        have hpin : p ∈ rest.map (fun e => e.1) :=
          List.mem_map_of_mem _ hmem'
        intro hc
        exact (List.nodup_cons.mp hkeys).1 (hc ▸ hpin)
      rw [parsePath_countP_zero _ _ _ _ _ hkeyne, Nat.zero_add]
      exact ih hmem' (by
          rw [List.map_cons] at hkeys
          exact (List.nodup_cons.mp hkeys).2)
        (fun e' he' => hperm e' (List.mem_cons_of_mem e he'))

/-- C5 counterexample: a path item defining only a TRACE operation
yields no compiled operation at all — the claim predicts exactly one —
and two legal iteration orders of the method map yield differently
ordered outputs for the same input, so the emitted order is not
stable. -/
theorem compiler_counterexample :
    Specs.parseSpec [("/a", Fix.traceOnlyItem, Specs.parseMethods)] = []
    ∧ (Specs.parseSpec [("/a", Fix.traceOnlyItem, Specs.parseMethods)]).countP
        (fun r => decide (r.path = "/a" ∧ r.method = "TRACE")) = 0
    ∧ Specs.parsePath ["GET", "POST", "PUT", "DELETE", "PATCH", "HEAD", "OPTIONS"]
        "/b" Fix.getPostItem
      ≠ Specs.parsePath ["POST", "GET", "PUT", "DELETE", "PATCH", "HEAD", "OPTIONS"]
        "/b" Fix.getPostItem := by
  refine ⟨by decide, by decide, by decide⟩

/-- Witness for the amended C5: one entry defining GET and POST under
path /a produces exactly one GET route for /a. -/
theorem compiler_one_route_per_path_method_witness :
    (Specs.parseSpec [("/a", Fix.getPostItem, Specs.parseMethods)]).countP
        (fun r => decide (r.path = "/a" ∧ r.method = "GET")) = 1 := by
  have h := compiler_one_route_per_path_method
    [("/a", Fix.getPostItem, Specs.parseMethods)] "/a" "GET" Fix.getPostItem
    Specs.parseMethods (by decide) (by decide)
    (by
      intro e he
      rcases List.mem_singleton.mp he with rfl
      exact List.Perm.refl _)
  simpa using h

/-- Helper: an `Allow` call with room in the pruned window admits,
appending the call time. -/
theorem slidingAllow_pos {R : Nat} {W : Int} {s : List Int} {now : Int}
    (h : (s.filter (fun t => now - W < t)).length < R) :
    RL.slidingAllow R W s now = (s.filter (fun t => now - W < t) ++ [now], true, 0) := by
  rw [RL.slidingAllow]
  simp only
  rw [if_pos h]

/-- Helper: an `Allow` call with a full pruned window denies and leaves
the window as pruned. -/
theorem slidingAllow_deny {R : Nat} {W : Int} {s : List Int} {now : Int}
    (h : ¬ (s.filter (fun t => now - W < t)).length < R) :
    (RL.slidingAllow R W s now).1 = s.filter (fun t => now - W < t)
    ∧ (RL.slidingAllow R W s now).2.1 = false := by
  rw [RL.slidingAllow]
  simp only
  rw [if_neg h]
  rcases s.filter (fun t => now - W < t) with - | ⟨oldest, restl⟩
  · exact ⟨rfl, rfl⟩
  · exact ⟨rfl, rfl⟩

/-- Helper: window-bound induction.  `admitted` is the list of call
times admitted so far, `last` the time of the latest call, and the
stored window is exactly the admitted times younger than one window;
then the admitted calls inside the interval (x, x+W] never exceed R. -/
theorem slidingRun_window_aux (R : Nat) (W x : Int) (hW : 0 < W) :
    ∀ (ts : List Int) (admitted : List Int) (last : Int),
    List.Chain' (· ≤ ·) (last :: ts) →
    (∀ t ∈ admitted, t ≤ last) →
    admitted.countP (fun t => decide (x < t ∧ t ≤ x + W)) ≤ R →
    (admitted ++ (RL.slidingRun R W (admitted.filter (fun t => last - W < t)) ts).2).countP
      (fun t => decide (x < t ∧ t ≤ x + W)) ≤ R := by
  intro ts
  induction ts with
  | nil =>
    intro admitted last _ _ hcount
    simpa [RL.slidingRun] using hcount
  | cons now rest ih =>
    intro admitted last hchain hbound hcount
    have hln : last ≤ now := (List.chain'_cons.mp hchain).1
    have hchain' : List.Chain' (· ≤ ·) (now :: rest) := (List.chain'_cons.mp hchain).2
    have hff : (admitted.filter (fun t => last - W < t)).filter (fun t => now - W < t)
        = admitted.filter (fun t => now - W < t) := by
      rw [List.filter_filter]
      apply List.filter_congr
      intro t _
      by_cases h : now - W < t
      · have h' : last - W < t := by omega
        simp [h, h']
      · simp [h]
    rw [RL.slidingRun]
    by_cases hadm :
        ((admitted.filter (fun t => last - W < t)).filter (fun t => now - W < t)).length < R
    · rw [slidingAllow_pos hadm]
      simp only [if_pos]
      have hstate : (admitted.filter (fun t => last - W < t)).filter (fun t => now - W < t)
            ++ [now]
          = (admitted ++ [now]).filter (fun t => now - W < t) := by
        rw [hff, List.filter_append]
        have : (0 : Int) < W := hW
        simp only [List.filter_cons, List.filter_nil]
        rw [if_pos (by rw [decide_eq_true_eq]; omega)]
      rw [hstate]
      have hbound' : ∀ t ∈ admitted ++ [now], t ≤ now := by
        intro t ht
        rcases List.mem_append.mp ht with h | h
        · exact le_trans (hbound t h) hln
        · simpa using List.mem_singleton.mp h ▸ le_refl now
      have hcount' : (admitted ++ [now]).countP (fun t => decide (x < t ∧ t ≤ x + W)) ≤ R := by
        rw [List.countP_append]
        by_cases hin : x < now ∧ now ≤ x + W
        · have hmono : admitted.countP (fun t => decide (x < t ∧ t ≤ x + W))
              ≤ admitted.countP (fun t => decide (now - W < t)) := by
            apply List.countP_mono_left
            intro a _ hpa
            rw [decide_eq_true_eq] at hpa ⊢
            omega
          have hlen : admitted.countP (fun t => decide (now - W < t))
              = (admitted.filter (fun t => now - W < t)).length := by
            rw [List.countP_eq_length_filter]
          rw [hff] at hadm
          have : admitted.countP (fun t => decide (x < t ∧ t ≤ x + W)) < R := by
            omega
          simp only [List.countP_cons, List.countP_nil]
          have hnow : decide (x < now ∧ now ≤ x + W) = true := by
            rw [decide_eq_true_eq]; exact hin
          rw [hnow]
          simp only [if_pos]
          omega
        · simp only [List.countP_cons, List.countP_nil]
          have hnow : decide (x < now ∧ now ≤ x + W) = false := by
            rw [decide_eq_false_iff_not]; exact hin
          rw [hnow]
          simp only [Bool.false_eq_true, if_false]
          omega
      have h := ih (admitted ++ [now]) now (by exact hchain') hbound' hcount'
      simpa [List.append_assoc] using h
    · obtain ⟨h1, h2⟩ := slidingAllow_deny hadm
      rw [h1, h2, hff]
      simp only [Bool.false_eq_true, if_false, List.nil_append]
      exact ih admitted now hchain' (fun t ht => le_trans (hbound t ht) hln) hcount

/-- C7: the sliding-window limiter admits at most `requestsPerMinute`
calls in any half-open time interval of window length, over every
monotone call-time sequence; each call prunes the stored timestamps to
those strictly inside the window and admits exactly when fewer than
`requestsPerMinute` remain; and a denied call reports
`retryAfter = oldest + window − now` (the clamp at 0 never fires, since
the oldest retained timestamp is inside the window). -/
theorem slidingWindow_invariant (R : Nat) (W x : Int) (ts : List Int)
    (_hR : 0 < R) (hW : 0 < W) (hsorted : List.Chain' (· ≤ ·) ts) :
    ((RL.slidingRun R W [] ts).2.countP (fun t => decide (x < t ∧ t ≤ x + W)) ≤ R)
    ∧ (∀ s now, (RL.slidingAllow R W s now).2.1
        = decide ((s.filter (fun t => now - W < t)).length < R))
    ∧ (∀ (s : List Int) (now oldest : Int) (restl : List Int),
        s.filter (fun t => now - W < t) = oldest :: restl →
        ¬ ((oldest :: restl).length < R) →
        (RL.slidingAllow R W s now).2.2 = oldest + W - now) := by
  refine ⟨?_, ?_, ?_⟩
  · rcases ts with - | ⟨t0, rest⟩
    · simp [RL.slidingRun]
    · have h := slidingRun_window_aux R W x hW (t0 :: rest) [] t0
        (List.chain'_cons.mpr ⟨le_refl t0, hsorted⟩)
        (by intro t ht; cases ht)
        (by simp)
      simpa using h
  · intro s now
    by_cases h : (s.filter (fun t => now - W < t)).length < R
    · rw [slidingAllow_pos h]
      simp [h]
    · rw [(slidingAllow_deny h).2]
      simp [h]
  · intro s now oldest restl hfil hlen
    have holdest : now - W < oldest := by
      have hmem : oldest ∈ s.filter (fun t => now - W < t) := by
        rw [hfil]; exact List.mem_cons_self _ _
      have := List.of_mem_filter hmem
      rwa [decide_eq_true_eq] at this
    rw [RL.slidingAllow]
    simp only
    rw [hfil, if_neg (by simpa using hlen)]
    simp only
    rw [if_neg (by omega)]

/-- Witness for C7: limit 2 per 60-unit window, calls at 0, 10, 20, 61:
at most two admissions land in the window (0, 60]; and a denied call at
time 20 with stored window [0, 10] reports retryAfter 0 + 60 − 20. -/
theorem slidingWindow_invariant_witness :
    ((RL.slidingRun 2 60 [] [0, 10, 20, 61]).2.countP
        (fun t => decide ((0 : Int) < t ∧ t ≤ 0 + 60)) ≤ 2)
    ∧ (RL.slidingAllow 2 60 [0, 10] 20).2.2 = 0 + 60 - 20 := by
  have h := slidingWindow_invariant 2 60 0 [0, 10, 20, 61]
    (by decide) (by decide)
    (by
      rw [List.chain'_cons, List.chain'_cons, List.chain'_cons]
      refine ⟨by norm_num, by norm_num, by norm_num, ?_⟩
      simp)
  exact ⟨h.1, h.2.2 [0, 10] 20 0 [10] (by decide) (by decide)⟩

/-- Helper: `strings.Compare` of a list with itself is zero. -/
theorem strCmp_self : ∀ l : List Char, Ver.strCmp l l = 0 := by
  intro l
  induction l with
  | nil => rfl
  | cons c rest ih =>
    rw [Ver.strCmp, if_neg (lt_irrefl c), if_neg (lt_irrefl c)]
    exact ih

/-- Helper: a zero comparison means equal lists. -/
theorem strCmp_eq_zero : ∀ l1 l2 : List Char, Ver.strCmp l1 l2 = 0 → l1 = l2 := by
  intro l1
  induction l1 with
  | nil =>
    intro l2 h
    cases l2 with
    | nil => rfl
    | cons b bs => exact absurd h (by rw [Ver.strCmp]; omega)
  | cons a as ih =>
    intro l2 h
    cases l2 with
    | nil => exact absurd h (by rw [Ver.strCmp]; omega)
    | cons b bs =>
      rw [Ver.strCmp] at h
      by_cases hab : a < b
      · rw [if_pos hab] at h; omega
      · rw [if_neg hab] at h
        by_cases hba : b < a
        · rw [if_pos hba] at h; omega
        · rw [if_neg hba] at h
          have : a = b := le_antisymm (not_lt.mp hba) (not_lt.mp hab)
          rw [this, ih bs h]

/-- Helper: swapping the arguments negates the comparison. -/
theorem strCmp_swap : ∀ l1 l2 : List Char, Ver.strCmp l2 l1 = -Ver.strCmp l1 l2 := by
  intro l1
  induction l1 with
  | nil =>
    intro l2
    cases l2 with
    | nil => rfl
    | cons b bs => rfl
  | cons a as ih =>
    intro l2
    cases l2 with
    | nil => rfl
    | cons b bs =>
      rw [Ver.strCmp, Ver.strCmp]
      by_cases hab : a < b
      · simp [hab, lt_asymm hab]
      · by_cases hba : b < a
        · simp [hab, hba]
        · simp [hab, hba, ih bs]

/-- Helper: the string comparison is transitive in its strict part. -/
theorem strCmp_lt_trans :
    ∀ l1 l2 l3 : List Char, Ver.strCmp l1 l2 < 0 → Ver.strCmp l2 l3 < 0 →
    Ver.strCmp l1 l3 < 0 := by
  intro l1
  induction l1 with
  | nil =>
    intro l2 l3 h12 h23
    cases l3 with
    | nil =>
      cases l2 with
      | nil => exact absurd h12 (by rw [Ver.strCmp]; omega)
      | cons b bs => exact absurd h23 (by rw [Ver.strCmp]; omega)
    | cons c cs => rw [Ver.strCmp]; omega
  | cons a as ih =>
    intro l2 l3 h12 h23
    cases l2 with
    | nil => exact absurd h12 (by rw [Ver.strCmp]; omega)
    | cons b bs =>
      cases l3 with
      | nil => exact absurd h23 (by rw [Ver.strCmp]; omega)
      | cons c cs =>
        rw [Ver.strCmp] at h12 h23 ⊢
        by_cases hab : a < b
        · by_cases hbc : b < c
          · rw [if_pos (lt_trans hab hbc)]; omega
          · rw [if_neg hbc] at h23
            by_cases hcb : c < b
            · rw [if_pos hcb] at h23; omega
            · have hbceq : b = c := le_antisymm (not_lt.mp hcb) (not_lt.mp hbc)
              rw [if_pos (show a < c from by rw [← hbceq]; exact hab)]; omega
        · rw [if_neg hab] at h12
          by_cases hba : b < a
          · rw [if_pos hba] at h12; omega
          · have habeq : a = b := le_antisymm (not_lt.mp hba) (not_lt.mp hab)
            rw [if_neg hba] at h12
            by_cases hbc : b < c
            · rw [if_pos (show a < c from by rw [habeq]; exact hbc)]; omega
            · rw [if_neg hbc] at h23
              by_cases hcb : c < b
              · rw [if_pos hcb] at h23; omega
              · rw [if_neg hcb] at h23
                have hbceq : b = c := le_antisymm (not_lt.mp hcb) (not_lt.mp hbc)
                have hnac : ¬ a < c := by rw [habeq, hbceq]; exact lt_irrefl c
                have hnca : ¬ c < a := by rw [habeq, hbceq]; exact lt_irrefl c
                rw [if_neg hnac, if_neg hnca]
                exact ih bs cs h12 h23

/-- Helper: `Version.Compare` of a version with itself is zero. -/
theorem vcompare_self (v : Ver.Version) : Ver.vcompare v v = 0 := by
  rw [Ver.vcompare]
  simp [strCmp_self]

/-- Helper: a zero `Version.Compare` means equal versions. -/
theorem vcompare_eq_zero {v w : Ver.Version} (h : Ver.vcompare v w = 0) : v = w := by
  rcases v with ⟨vmj, vmn, vp, vl⟩
  rcases w with ⟨wmj, wmn, wp, wl⟩
  rw [Ver.vcompare] at h
  simp only at h
  by_cases h1 : vmj ≠ wmj
  · rw [if_pos h1] at h
    split at h <;> omega
  · rw [if_neg h1] at h
    by_cases h2 : vmn ≠ wmn
    · rw [if_pos h2] at h
      split at h <;> omega
    · rw [if_neg h2] at h
      by_cases h3 : vp ≠ wp
      · rw [if_pos h3] at h
        split at h <;> omega
      · rw [if_neg h3] at h
        have hl : vl.data = wl.data := strCmp_eq_zero _ _ h
        simp only [not_not] at h1 h2 h3
        simp [h1, h2, h3, String.ext hl]

/-- Helper: swapping the arguments negates `Version.Compare`. -/
theorem vcompare_swap (v w : Ver.Version) : Ver.vcompare w v = -Ver.vcompare v w := by
  rcases v with ⟨vmj, vmn, vp, vl⟩
  rcases w with ⟨wmj, wmn, wp, wl⟩
  rw [Ver.vcompare, Ver.vcompare]
  simp only
  by_cases h1 : vmj ≠ wmj
  · rw [if_pos h1, if_pos (by omega : wmj ≠ vmj)]
    rcases Nat.lt_or_ge vmj wmj with h | h
    · rw [if_neg (by omega : ¬ wmj < vmj), if_pos h]
      norm_num
    · rw [if_pos (by omega : wmj < vmj), if_neg (by omega : ¬ vmj < wmj)]
  · rw [if_neg h1, if_neg (by omega : ¬ wmj ≠ vmj)]
    by_cases h2 : vmn ≠ wmn
    · rw [if_pos h2, if_pos (by omega : wmn ≠ vmn)]
      rcases Nat.lt_or_ge vmn wmn with h | h
      · rw [if_neg (by omega : ¬ wmn < vmn), if_pos h]
        norm_num
      · rw [if_pos (by omega : wmn < vmn), if_neg (by omega : ¬ vmn < wmn)]
    · rw [if_neg h2, if_neg (by omega : ¬ wmn ≠ vmn)]
      by_cases h3 : vp ≠ wp
      · rw [if_pos h3, if_pos (by omega : wp ≠ vp)]
        rcases Nat.lt_or_ge vp wp with h | h
        · rw [if_neg (by omega : ¬ wp < vp), if_pos h]
          norm_num
        · rw [if_pos (by omega : wp < vp), if_neg (by omega : ¬ vp < wp)]
      · rw [if_neg h3, if_neg (by omega : ¬ wp ≠ vp)]
        exact strCmp_swap _ _

/-- Helper: the strict part of `Version.Compare`, characterized
lexicographically. -/
theorem vcompare_lt_iff (v w : Ver.Version) :
    Ver.vcompare v w < 0 ↔
      (v.major < w.major
       ∨ (v.major = w.major ∧ (v.minor < w.minor
          ∨ (v.minor = w.minor ∧ (v.patch < w.patch
             ∨ (v.patch = w.patch
                ∧ Ver.strCmp v.label.data w.label.data < 0)))))) := by
  rcases v with ⟨vmj, vmn, vp, vl⟩
  rcases w with ⟨wmj, wmn, wp, wl⟩
  rw [Ver.vcompare]
  simp only
  by_cases h1 : vmj ≠ wmj
  · rw [if_pos h1]
    rcases Nat.lt_or_ge vmj wmj with h | h
    · rw [if_pos h]
      constructor
      · intro _; exact Or.inl h
      · intro _; norm_num
    · rw [if_neg (by omega)]
      constructor
      · intro hc; omega
      · rintro (hc | ⟨hc, -⟩) <;> omega
  · rw [if_neg h1]
    by_cases h2 : vmn ≠ wmn
    · rw [if_pos h2]
      rcases Nat.lt_or_ge vmn wmn with h | h
      · rw [if_pos h]
        constructor
        · intro _; exact Or.inr ⟨by omega, Or.inl h⟩
        · intro _; norm_num
      · rw [if_neg (by omega)]
        constructor
        · intro hc; omega
        · rintro (hc | ⟨-, hc | ⟨hc, -⟩⟩) <;> omega
    · rw [if_neg h2]
      by_cases h3 : vp ≠ wp
      · rw [if_pos h3]
        rcases Nat.lt_or_ge vp wp with h | h
        · rw [if_pos h]
          constructor
          · intro _; exact Or.inr ⟨by omega, Or.inr ⟨by omega, Or.inl h⟩⟩
          · intro _; norm_num
        · rw [if_neg (by omega)]
          constructor
          · intro hc; omega
          · rintro (hc | ⟨-, hc | ⟨-, hc | ⟨hc, -⟩⟩⟩) <;> omega
      · rw [if_neg h3]
        constructor
        · intro hc
          exact Or.inr ⟨by omega, Or.inr ⟨by omega, Or.inr ⟨by omega, hc⟩⟩⟩
        · rintro (hc | ⟨-, hc | ⟨-, hc | ⟨-, hc⟩⟩⟩)
          · omega
          · omega
          · omega
          · exact hc

/-- Helper: `Version.Compare` is transitive in its strict part. -/
theorem vcompare_lt_trans {a b c : Ver.Version}
    (h1 : Ver.vcompare a b < 0) (h2 : Ver.vcompare b c < 0) :
    Ver.vcompare a c < 0 := by
  rw [vcompare_lt_iff] at h1 h2 ⊢
  rcases h1 with h1a | ⟨h1a, h1b | ⟨h1b, h1c | ⟨h1c, h1d⟩⟩⟩ <;>
    rcases h2 with h2a | ⟨h2a, h2b | ⟨h2b, h2c | ⟨h2c, h2d⟩⟩⟩ <;>
    first
      | (left; omega)
      | (right; exact ⟨by omega, Or.inl (by omega)⟩)
      | (right; exact ⟨by omega, Or.inr ⟨by omega, Or.inl (by omega)⟩⟩)
      | (right
         exact ⟨by omega, Or.inr ⟨by omega, Or.inr
           ⟨by omega, strCmp_lt_trans _ _ _ h1d h2d⟩⟩⟩)

/-- Helper: `Version.Compare` is transitive in its non-strict part. -/
theorem vcompare_le_trans {a b c : Ver.Version}
    (h1 : Ver.vcompare a b ≤ 0) (h2 : Ver.vcompare b c ≤ 0) :
    Ver.vcompare a c ≤ 0 := by
  rcases (by omega : Ver.vcompare a b < 0 ∨ Ver.vcompare a b = 0) with hlt | heq
  · rcases (by omega : Ver.vcompare b c < 0 ∨ Ver.vcompare b c = 0) with hlt' | heq'
    · exact le_of_lt (vcompare_lt_trans hlt hlt')
    · rw [← vcompare_eq_zero heq']
      exact h1
  · rw [vcompare_eq_zero heq]
    exact h2

/-- Helper: folding the selection step from a candidate `b` satisfying
`p` always lands on some `r` from `b :: l` satisfying `p` that is
version-maximal among `b` and the qualifying elements of `l`. -/
theorem pickBest_go (p : Ver.VSpec → Bool) :
    ∀ (l : List Ver.VSpec) (b : Ver.VSpec), p b = true →
    ∃ r, l.foldl (Ver.pickStep p) (some b) = some r
      ∧ (r = b ∨ r ∈ l) ∧ p r = true
      ∧ Ver.vcompare b.version r.version ≤ 0
      ∧ ∀ s ∈ l, p s = true → Ver.vcompare s.version r.version ≤ 0 := by
  intro l
  induction l with
  | nil =>
    intro b hb
    exact ⟨b, rfl, .inl rfl, hb, le_of_eq (vcompare_self b.version),
      fun s hs => absurd hs (List.not_mem_nil s)⟩
  | cons s l ih =>
    intro b hb
    rw [List.foldl_cons]
    by_cases hps : p s = true
    · rw [show Ver.pickStep p (some b) s
          = if Ver.vcompare s.version b.version > 0 then some s else some b from by
        rw [Ver.pickStep, if_pos hps]]
      by_cases hgt : Ver.vcompare s.version b.version > 0
      · rw [if_pos hgt]
        obtain ⟨r, hr, hmem, hpr, hsr, hall⟩ := ih s hps
        refine ⟨r, hr, ?_, hpr, ?_, ?_⟩
        · right
          rcases hmem with rfl | h
          · exact List.mem_cons_self _ _
          · exact List.mem_cons_of_mem _ h
        · have hbs : Ver.vcompare b.version s.version < 0 := by
            have := vcompare_swap s.version b.version
            omega
          exact vcompare_le_trans (le_of_lt hbs) hsr
        · intro t ht hpt
          rcases List.mem_cons.mp ht with rfl | h
          · exact hsr
          · exact hall t h hpt
      · rw [if_neg hgt]
        obtain ⟨r, hr, hmem, hpr, hbr, hall⟩ := ih b hb
        refine ⟨r, hr, ?_, hpr, hbr, ?_⟩
        · rcases hmem with rfl | h
          · exact .inl rfl
          · exact .inr (List.mem_cons_of_mem _ h)
        · intro t ht hpt
          rcases List.mem_cons.mp ht with rfl | h
          · exact vcompare_le_trans (by omega) hbr
          · exact hall t h hpt
    · rw [show Ver.pickStep p (some b) s = some b from by rw [Ver.pickStep, if_neg hps]]
      obtain ⟨r, hr, hmem, hpr, hbr, hall⟩ := ih b hb
      refine ⟨r, hr, ?_, hpr, hbr, ?_⟩
      · rcases hmem with rfl | h
        · exact .inl rfl
        · exact .inr (List.mem_cons_of_mem _ h)
      · intro t ht hpt
        rcases List.mem_cons.mp ht with rfl | h
        · exact absurd hpt hps
        · exact hall t h hpt

/-- Helper: specification of the selection loop. `none` means no
element qualifies; `some r` means `r` is a qualifying element at least
as great (by `Version.Compare`) as every qualifying element. -/
theorem pickBest_spec (p : Ver.VSpec → Bool) (l : List Ver.VSpec) :
    (Ver.pickBest p l = none → ∀ s ∈ l, p s = false)
    ∧ (∀ r, Ver.pickBest p l = some r →
        r ∈ l ∧ p r = true
          ∧ ∀ s ∈ l, p s = true → Ver.vcompare s.version r.version ≤ 0) := by
  cases l with
  | nil =>
    exact ⟨fun _ s hs => absurd hs (List.not_mem_nil s), fun r hr => Option.noConfusion hr⟩
  | cons s l =>
    rw [Ver.pickBest, List.foldl_cons]
    by_cases hps : p s = true
    · rw [show Ver.pickStep p none s = some s from by rw [Ver.pickStep, if_pos hps]]
      obtain ⟨r, hr, hmem, hpr, hsr, hall⟩ := pickBest_go p l s hps
      rw [hr]
      constructor
      · intro hc
        exact Option.noConfusion hc
      · intro r' hr'
        obtain rfl := Option.some.inj hr'
        refine ⟨?_, hpr, ?_⟩
        · rcases hmem with rfl | h
          · exact List.mem_cons_self _ _
          · exact List.mem_cons_of_mem _ h
        · intro t ht hpt
          rcases List.mem_cons.mp ht with rfl | h
          · exact hsr
          · exact hall t h hpt
    · rw [show Ver.pickStep p none s = none from by rw [Ver.pickStep, if_neg hps]]
      have ih := pickBest_spec p l
      rw [Ver.pickBest] at ih
      constructor
      · intro hnone t ht
        rcases List.mem_cons.mp ht with rfl | h
        · exact Bool.not_eq_true (p t) ▸ hps
        · exact ih.1 hnone t h
      · intro r hr
        obtain ⟨hmem, hpr, hall⟩ := ih.2 r hr
        refine ⟨List.mem_cons_of_mem _ hmem, hpr, ?_⟩
        intro t ht hpt
        rcases List.mem_cons.mp ht with rfl | h
        · exact absurd hpt hps
        · exact hall t h hpt

/-- Helper: with duplicate-free version keys, the exact-match lookup
finds exactly the stored entry carrying the requested version. -/
theorem find_version_unique :
    ∀ (l : List Ver.VSpec) (s : Ver.VSpec) (v : Ver.Version),
    (l.map (fun t => t.version)).Nodup → s ∈ l → s.version = v →
    l.find? (fun t => decide (t.version = v)) = some s := by
  intro l
  induction l with
  | nil => intro s v _ hmem _; cases hmem
  | cons e rest ih =>
    intro s v hnd hmem hv
    rcases List.mem_cons.mp hmem with rfl | hmem'
    · exact List.find?_cons_of_pos _ (by simpa using hv)
    · have hne : ¬ e.version = v := by
        intro hc
        rw [List.map_cons, List.nodup_cons] at hnd
        exact hnd.1 (hc ▸ hv ▸ List.mem_map_of_mem (fun t => t.version) hmem')
      rw [List.find?_cons_of_neg _ (by simpa using hne)]
      exact ih s v (by rw [List.map_cons, List.nodup_cons] at hnd; exact hnd.2) hmem' hv

/-- C4 amended: path-based resolution for a service's registered
versions (duplicate-free, as map keys).  A path carrying /v{major} or
/v{major}.{minor} resolves to the entry stored under exactly the full
requested version (major, minor, 0, "") when one exists — not to the
highest minor of that major; otherwise to the version-greatest entry
whose major equals and minor is at least the requested one; otherwise
to the not-found error.  A path without version information resolves to
the version-greatest registered entry. -/
theorem versionResolution_spec (l : List Ver.VSpec) (path : String)
    (hnd : (l.map (fun t => t.version)).Nodup) :
    (∀ mj mn s, Ver.pathVersion path = some (mj, mn) →
        s ∈ l → s.version = ⟨mj, mn, 0, ""⟩ →
        Ver.resolveVersionFromPath l path = (some s, none))
    ∧ (∀ mj mn r, Ver.pathVersion path = some (mj, mn) →
        (∀ s ∈ l, s.version ≠ ⟨mj, mn, 0, ""⟩) →
        Ver.resolveVersionFromPath l path = (some r, none) →
        r ∈ l ∧ Ver.isCompatible r.version ⟨mj, mn, 0, ""⟩ = true
          ∧ ∀ s ∈ l, Ver.isCompatible s.version ⟨mj, mn, 0, ""⟩ = true →
              Ver.vcompare s.version r.version ≤ 0)
    ∧ (∀ mj mn, Ver.pathVersion path = some (mj, mn) →
        (∃ s ∈ l, Ver.isCompatible s.version ⟨mj, mn, 0, ""⟩ = true) →
        ∃ r, Ver.resolveVersionFromPath l path = (some r, none))
    ∧ (∀ mj mn, Ver.pathVersion path = some (mj, mn) →
        (∀ s ∈ l, Ver.isCompatible s.version ⟨mj, mn, 0, ""⟩ = false) →
        Ver.resolveVersionFromPath l path = (none, some "no compatible version found"))
    ∧ (∀ r, Ver.pathVersion path = none →
        Ver.resolveVersionFromPath l path = (some r, none) →
        r ∈ l ∧ ∀ s ∈ l, Ver.vcompare s.version r.version ≤ 0)
    ∧ (Ver.pathVersion path = none → l ≠ [] →
        ∃ r, Ver.resolveVersionFromPath l path = (some r, none)) := by
  refine ⟨?_, ?_, ?_, ?_, ?_, ?_⟩
  · intro mj mn s hpv hmem hv
    simp only [Ver.resolveVersionFromPath, hpv, Ver.getCompatibleVersion,
      find_version_unique l s ⟨mj, mn, 0, ""⟩ hnd hmem hv]
  · intro mj mn r hpv hnone hres
    have hfind : l.find? (fun t => decide (t.version = (⟨mj, mn, 0, ""⟩ : Ver.Version)))
        = none := by
      rw [List.find?_eq_none]
      intro t ht
      simpa using hnone t ht
    simp only [Ver.resolveVersionFromPath, hpv, Ver.getCompatibleVersion, hfind] at hres
    rcases hpb : Ver.pickBest
        (fun s => Ver.isCompatible s.version ⟨mj, mn, 0, ""⟩) l with - | b
    · simp only [hpb] at hres
      have := congrArg Prod.fst hres
      simp at this
    · simp only [hpb] at hres
      have h1 := congrArg Prod.fst hres
      simp only at h1
      obtain rfl : b = r := Option.some.inj h1
      exact (pickBest_spec _ l).2 b hpb
  · intro mj mn hpv hex
    simp only [Ver.resolveVersionFromPath, hpv, Ver.getCompatibleVersion]
    rcases hf : l.find? (fun t => decide (t.version = (⟨mj, mn, 0, ""⟩ : Ver.Version)))
        with - | s'
    · rcases hpb : Ver.pickBest
          (fun s => Ver.isCompatible s.version ⟨mj, mn, 0, ""⟩) l with - | b
      · exfalso
        obtain ⟨s, hs, hps⟩ := hex
        have hcontra := (pickBest_spec _ l).1 hpb s hs
        rw [hps] at hcontra
        exact Bool.noConfusion hcontra
      · exact ⟨b, by simp only [hf, hpb]⟩
    · exact ⟨s', by simp only [hf]⟩
  · intro mj mn hpv hall
    have hvv : Ver.isCompatible (⟨mj, mn, 0, ""⟩ : Ver.Version) ⟨mj, mn, 0, ""⟩ = true := by
      rw [Ver.isCompatible]
      simp
    have hfind : l.find? (fun t => decide (t.version = (⟨mj, mn, 0, ""⟩ : Ver.Version)))
        = none := by
      rw [List.find?_eq_none]
      intro t ht hc
      rw [decide_eq_true_eq] at hc
      have hf := hall t ht
      rw [hc, hvv] at hf
      exact Bool.noConfusion hf
    have hpb : Ver.pickBest (fun s => Ver.isCompatible s.version ⟨mj, mn, 0, ""⟩) l
        = none := by
      rcases hq : Ver.pickBest (fun s => Ver.isCompatible s.version ⟨mj, mn, 0, ""⟩) l
          with - | b
      · rfl
      · exfalso
        obtain ⟨hmemb, hpb', -⟩ := (pickBest_spec _ l).2 b hq
        rw [hall b hmemb] at hpb'
        exact Bool.noConfusion hpb'
    simp only [Ver.resolveVersionFromPath, hpv, Ver.getCompatibleVersion, hfind, hpb]
  · intro r hpv hres
    simp only [Ver.resolveVersionFromPath, hpv, Ver.getLatestVersion] at hres
    have h1 := congrArg Prod.fst hres
    simp only at h1
    obtain ⟨hmem, -, hall⟩ := (pickBest_spec _ l).2 r h1
    exact ⟨hmem, fun s hs => hall s hs rfl⟩
  · intro hpv hne
    simp only [Ver.resolveVersionFromPath, hpv, Ver.getLatestVersion]
    rcases hq : Ver.pickBest (fun _ => true) l with - | b
    · exfalso
      rcases l with - | ⟨a, l'⟩
      · exact hne rfl
      · exact Bool.noConfusion ((pickBest_spec _ _).1 hq a (List.mem_cons_self _ _))
    · exact ⟨b, by simp only [hq]⟩

/-- C4 counterexample: with versions 1.0.0 and 1.1.0 registered, a
request for path /v1/list resolves to 1.0.0 — the exact-lookup step
matches the full requested version (1, 0, 0, "") — not to 1.1.0 as the
claim predicts; the /v2/list part of the claim (not-found) does hold. -/
theorem versionResolution_counterexample :
    Ver.resolveVersionFromPath
        [⟨⟨1, 0, 0, ""⟩, "spec-1.0.0"⟩, ⟨⟨1, 1, 0, ""⟩, "spec-1.1.0"⟩] "/v1/list"
      = (some ⟨⟨1, 0, 0, ""⟩, "spec-1.0.0"⟩, none)
    ∧ (Ver.resolveVersionFromPath
        [⟨⟨1, 0, 0, ""⟩, "spec-1.0.0"⟩, ⟨⟨1, 1, 0, ""⟩, "spec-1.1.0"⟩] "/v1/list").1
      ≠ some ⟨⟨1, 1, 0, ""⟩, "spec-1.1.0"⟩
    ∧ Ver.resolveVersionFromPath
        [⟨⟨1, 0, 0, ""⟩, "spec-1.0.0"⟩, ⟨⟨1, 1, 0, ""⟩, "spec-1.1.0"⟩] "/v2/list"
      = (none, some "no compatible version found") := by
  exact ⟨by decide, by decide, by decide⟩

/-- Witness for the amended C4: with only 1.0.0 registered, /v1/x
resolves to the exact full-version match 1.0.0. -/
theorem versionResolution_spec_witness :
    Ver.resolveVersionFromPath [⟨⟨1, 0, 0, ""⟩, "spec-1.0.0"⟩] "/v1/x"
      = (some ⟨⟨1, 0, 0, ""⟩, "spec-1.0.0"⟩, none) := by
  have h := versionResolution_spec [⟨⟨1, 0, 0, ""⟩, "spec-1.0.0"⟩] "/v1/x" (by decide)
  exact h.1 1 0 ⟨⟨1, 0, 0, ""⟩, "spec-1.0.0"⟩ (by decide) (by decide) rfl
